import Mathlib

/-!
# Verification of `authors_works_aggregate.py`

A shallow embedding of the author identity-resolution and aggregation engine
(`normalize_name` and `aggregate_authors` of `authors_works_aggregate.py`),
together with theorems checking the specification's claims against it.

Modelling conventions, stated once:

* Python strings are Lean `String`s (lists of unicode scalar chars).
* The Unicode character tables the source reaches through `unicodedata`,
  `re` character classes and `str.lower`/`str.upper` are abstracted into a
  `CharModel`: `nfkd` is `unicodedata.normalize('NFKD', ·)` per character,
  `combining` is `unicodedata.combining(·) != 0`, `isWordChar` is the regex
  class `\w`, `isSpaceChar` is the class `\s` (also used for `str.strip`,
  whose whitespace set coincides with `\s` on all practical inputs), and
  `lower`/`upper` are the per-character case mappings (list-valued, since
  Unicode case mapping may expand a character).  `asciiChars` instantiates
  the model on the ASCII fragment, where all of these are exactly right.
* Python `dict`s are association lists in insertion order (CPython dicts
  preserve insertion order; assignment to an existing key keeps its slot).
* Python `set`s are modelled as duplicate-free lists in first-insertion
  order.  The finalizer reads them only through `len(...)`, `sorted(...)`
  and — for the group's raw-name set — iteration; CPython's actual set
  iteration order is hash-dependent, and first-insertion order is the
  deterministic refinement used here.
* Python's sorts (`sorted(...)` and `list.sort(key=..., reverse=True)`)
  are stable; both are modelled by the stable insertion sort `pySorted`,
  which agrees with any stable sort of the same total preorder.
* `group_names[gid]` in the source always holds exactly the same set as
  `author_data[gid]['author_names']` (both receive precisely the trimmed
  `author_name` of every row resolved to `gid`), so the two are modelled by
  the single field `author_names`.
* `int(...)` (used for `cited_by_count` and the year) is `pyInt?`: strip
  whitespace, optional sign, decimal digits.  `cited_by_count` is modelled
  as the row's string field, as read from a CSV that carries the column.
-/

namespace AWAgg

/-- The Unicode-dependent character operations the source uses, abstracted:
`nfkd` = NFKD decomposition of one character, `combining` = has a nonzero
canonical combining class, `isWordChar` = regex `\w`, `isSpaceChar` = regex
`\s` (and `str.strip` whitespace), `lower`/`upper` = per-character case
mappings (possibly expanding). -/
structure CharModel where
  nfkd : Char → List Char
  combining : Char → Bool
  isWordChar : Char → Bool
  isSpaceChar : Char → Bool
  lower : Char → List Char
  upper : Char → List Char

/-- Drop leading and trailing characters satisfying `p` (`str.strip`). -/
def trimBy (p : Char → Bool) (l : List Char) : List Char :=
  ((l.dropWhile p).reverse.dropWhile p).reverse

/-- Python `str.strip()` on a string, via the model's whitespace class. -/
def pyStrip (M : CharModel) (s : String) : String :=
  ⟨trimBy M.isSpaceChar s.data⟩

/-- Python `str.lower()` on a string (per-character, possibly expanding). -/
def pyLower (M : CharModel) (s : String) : String :=
  ⟨s.data.flatMap M.lower⟩

/-- A character matched by the regex class `[-\s]`. -/
def dashy (M : CharModel) (c : Char) : Bool :=
  M.isSpaceChar c || c == '-'

/-- Worker for `collapseRuns`: `inRun` records whether the previous
character belonged to a hyphen/whitespace run (whose single replacement
space was already emitted). -/
def collapseGo (M : CharModel) : Bool → List Char → List Char
  | _, [] => []
  | inRun, c :: cs =>
    if dashy M c then
      if inRun then collapseGo M true cs else ' ' :: collapseGo M true cs
    else c :: collapseGo M false cs

/-- `re.sub(r'[-\s]+', ' ', ·)`: replace each maximal run of hyphens and
whitespace by a single space. -/
def collapseRuns (M : CharModel) (l : List Char) : List Char :=
  collapseGo M false l

/-- `normalize_name` of the source: NFKD-decompose, drop combining marks,
drop everything but word characters, whitespace and hyphens, collapse runs
of hyphens/whitespace to one space, lower-case, strip. -/
def normalize_name (M : CharModel) (s : String) : String :=
  let s1 := s.data.flatMap M.nfkd
  let s2 := s1.filter (fun c => ! M.combining c)
  let s3 := s2.filter (fun c => M.isWordChar c || M.isSpaceChar c || c == '-')
  let s4 := collapseRuns M s3
  let s5 := s4.flatMap M.lower
  ⟨trimBy M.isSpaceChar s5⟩

/-- Digits of a decimal numeral, most significant first. -/
def digitsVal : List Char → Option Nat
  | [] => none
  | cs =>
    if cs.all Char.isDigit then
      some (cs.foldl (fun n c => 10 * n + (c.toNat - 48)) 0)
    else none

/-- Python `int(s)` on a string: strip whitespace, optional sign, decimal
digits; `none` when `int` would raise `ValueError`. -/
def pyInt? (s : String) : Option Int :=
  match trimBy Char.isWhitespace s.data with
  | '-' :: cs => (digitsVal cs).map (fun n => -(n : Int))
  | '+' :: cs => (digitsVal cs).map (fun n => (n : Int))
  | cs => (digitsVal cs).map (fun n => (n : Int))

/-- One input row, as `csv.DictReader` hands it to the loop: every field a
string (`row.get(..., '')`). -/
structure Row where
  author_name : String
  author_id : String
  id : String
  source_id : String
  references_israel : String
  cited_by_count : String
  publication_date : String
  institutions : String
  countries : String
  affiliations_comment : String
deriving DecidableEq

/-- The per-group aggregate (`author_data[gid]`, with `group_names[gid]`
folded into `author_names`, see the header comment).  Every `set` field is
a duplicate-free list in first-insertion order. -/
structure GroupData where
  author_names : List String
  author_ids : List String
  work_ids : List String
  specific_work_ids : List String
  cited_by_per_work : List (String × Int)
  years : List Int
  source_ids : List String
  institutions : List String
  countries : List String
  affiliations : List String
deriving DecidableEq

/-- The empty group a `defaultdict` access creates. -/
def emptyGroup : GroupData :=
  { author_names := []
    author_ids := []
    work_ids := []
    specific_work_ids := []
    cited_by_per_work := []
    years := []
    source_ids := []
    institutions := []
    countries := []
    affiliations := [] }

/-- First-match lookup in an association list (Python `d[k]` / `k in d`). -/
def alookup {α β : Type} [DecidableEq α] (k : α) : List (α × β) → Option β
  | [] => none
  | (a, b) :: t => if a = k then some b else alookup k t

/-- Python `d[k] = v`: replace in place when `k` is a key, else append. -/
def aupsert {α β : Type} [DecidableEq α] (k : α) (v : β) :
    List (α × β) → List (α × β)
  | [] => [(k, v)]
  | (a, b) :: t => if a = k then (k, v) :: t else (a, b) :: aupsert k v t

/-- Python `defaultdict` access-and-mutate `f(d[k])`: apply `f` in place
when `k` is a key, else append `(k, f default)`. -/
def dupdate {α β : Type} [DecidableEq α] (k : α) (f : β → β) (dflt : β) :
    List (α × β) → List (α × β)
  | [] => [(k, f dflt)]
  | (a, b) :: t => if a = k then (a, f b) :: t else (a, b) :: dupdate k f dflt t

/-- Mutable state of the aggregation loop: the id→group and normalized
name→group indices, the fresh-id counter and the group table. -/
structure AggState where
  idMap : List (String × Nat)
  nameMap : List (String × Nat)
  counter : Nat
  data : List (Nat × GroupData)
deriving DecidableEq

/-- The state before the first row. -/
def initState : AggState :=
  { idMap := [], nameMap := [], counter := 0, data := [] }

/-- Split on `;`, strip each piece, drop empties (the multi-valued column
treatment for `institutions`, `countries`, `affiliations_comment`). -/
def splitSemi (M : CharModel) (s : String) : List String :=
  (s.data.splitOn ';').filterMap (fun piece =>
    let t := trimBy M.isSpaceChar piece
    if t = [] then none else some ⟨t⟩)

/-- `set.add` under the first-insertion-order list model of a Python set. -/
def dedupInsert {α : Type} [DecidableEq α] (l : List α) (x : α) : List α :=
  if x ∈ l then l else l ++ [x]

/-- Add every element of `l` to the set `s` in order. -/
def insertAll {α : Type} [DecidableEq α] (s : List α) (l : List α) : List α :=
  l.foldl dedupInsert s

/-- The year accepted from `publication_date`: the field is non-empty of
length ≥ 4, its first four characters parse as an integer in [1900, 2100]. -/
def yearOf (s : String) : Option Int :=
  if s.data ≠ [] ∧ 4 ≤ s.data.length then
    match pyInt? ⟨s.data.take 4⟩ with
    | some y => if 1900 ≤ y ∧ y ≤ 2100 then some y else none
    | none => none
  else none

/-- The flag test: `row.get('references_israel', '').lower() in
['yes', 'true', '1']` (note: not stripped). -/
def flagged (M : CharModel) (r : Row) : Bool :=
  pyLower M r.references_israel = "yes" ∨ pyLower M r.references_israel = "true"
    ∨ pyLower M r.references_israel = "1"

/-- The `cited_by_count` handling of one row against one group's
`cited_by_per_work` map: parse failures are ignored, an already-present
work id is never overwritten (first-write-wins). -/
def citedStep (M : CharModel) (m : List (String × Int)) (r : Row) :
    List (String × Int) :=
  match pyInt? r.cited_by_count with
  | some v =>
    match alookup (pyStrip M r.id) m with
    | some _ => m
    | none => m ++ [(pyStrip M r.id, v)]
  | none => m

/-- The body of the per-row update section: every `data[...].add`/assignment
the loop performs once the row's group is resolved. `name`, `aid`, `wid` are
the already-stripped `author_name`, `author_id` and work id. -/
def mergeRow (M : CharModel) (g : GroupData) (r : Row) : GroupData :=
  let name := pyStrip M r.author_name
  let aid := pyStrip M r.author_id
  let wid := pyStrip M r.id
  let src := pyStrip M r.source_id
  { g with
    author_names := dedupInsert g.author_names name
    author_ids := if aid ≠ "" then dedupInsert g.author_ids aid else g.author_ids
    work_ids := dedupInsert g.work_ids wid
    source_ids := if src ≠ "" then dedupInsert g.source_ids src else g.source_ids
    specific_work_ids :=
      if flagged M r then dedupInsert g.specific_work_ids wid
      else g.specific_work_ids
    cited_by_per_work :=
      match pyInt? r.cited_by_count with
      | some v =>
        match alookup wid g.cited_by_per_work with
        | some _ => g.cited_by_per_work
        | none => g.cited_by_per_work ++ [(wid, v)]
      | none => g.cited_by_per_work
    years :=
      match yearOf r.publication_date with
      | some y => dedupInsert g.years y
      | none => g.years
    institutions := insertAll g.institutions (splitSemi M r.institutions)
    countries := insertAll g.countries (splitSemi M r.countries)
    affiliations := insertAll g.affiliations (splitSemi M r.affiliations_comment) }

/-- The linear scan `for gid, data in author_data.items(): if author_id in
data['author_ids']` of the id-resolution fallback: first group whose
`author_ids` contains `aid`. -/
def findGroupWithId (aid : String) : List (Nat × GroupData) → Option Nat
  | [] => none
  | (gid, g) :: t => if aid ∈ g.author_ids then some gid else findGroupWithId aid t

/-- Group resolution for a valid row: the `if author_id: ... else: ...`
block.  Returns the resolved `group_id` and the state as mutated by the
resolution itself (map inserts and counter bumps). -/
def resolveGroup (M : CharModel) (s : AggState) (r : Row) : Nat × AggState :=
  let aid := pyStrip M r.author_id
  if aid ≠ "" then
    match alookup aid s.idMap with
    | some gid => (gid, s)
    | none =>
      match findGroupWithId aid s.data with
      | some gid => (gid, { s with idMap := aupsert aid gid s.idMap })
      | none =>
        (s.counter,
         { s with
           idMap := aupsert aid s.counter s.idMap
           counter := s.counter + 1 })
  else
    let nn := normalize_name M (pyStrip M r.author_name)
    match alookup nn s.nameMap with
    | some gid => (gid, s)
    | none =>
      (s.counter,
       { s with
         nameMap := aupsert nn s.counter s.nameMap
         counter := s.counter + 1 })

/-- One iteration of the reading loop: reject rows whose stripped
`author_name` or work id is empty, otherwise resolve the group, merge the
row into it (`data = author_data[group_id]; data[...].add(...)`) and
re-assert the id→group binding when the row carries an id. -/
def stepRow (M : CharModel) (s : AggState) (r : Row) : AggState :=
  let name := pyStrip M r.author_name
  if name = "" then s
  else
    let wid := pyStrip M r.id
    if wid = "" then s
    else
      let aid := pyStrip M r.author_id
      let res := resolveGroup M s r
      let gid := res.1
      let s1 := res.2
      { s1 with
        data := dupdate gid (fun g => mergeRow M g r) emptyGroup s1.data
        idMap := if aid ≠ "" then aupsert aid gid s1.idMap else s1.idMap }

/-- The whole reading phase over a row stream. -/
def runAgg (M : CharModel) (rows : List Row) : AggState :=
  rows.foldl (stepRow M) initState

/-- One output record (fields in their natural types; CSV rendering of
numbers and of the blank `min_year`/`max_year` is I/O). -/
structure OutputRow where
  author_name : String
  author_ids : String
  works_count : Nat
  specific_works_count : Nat
  journals_count : Nat
  cited_by_count : Int
  min_year : Option Int
  max_year : Option Int
  institutions : String
  countries : String
  affiliations_comment : String
deriving DecidableEq

/-- `';'.join(xs)`. -/
def joinSemi : List String → String
  | [] => ""
  | [x] => x
  | x :: xs => x ++ ";" ++ joinSemi xs

/-- Python `max(xs, key)` on a non-empty list: the first element attaining
the maximal key. -/
def pyMax (key : String → Nat) : List String → String
  | [] => ""
  | x :: xs => xs.foldl (fun best c => if key best < key c then c else best) x

/-- `set(...)` of a list under the first-insertion-order model. -/
def firstDedup {α : Type} [DecidableEq α] (l : List α) : List α :=
  l.foldl dedupInsert []

/-- Worker for `pySplitWs`: `cur` is the current word read so far. -/
def splitWsGo (M : CharModel) : List Char → List Char → List (List Char)
  | cur, [] => if cur = [] then [] else [cur]
  | cur, c :: cs =>
    if M.isSpaceChar c then
      if cur = [] then splitWsGo M [] cs else cur :: splitWsGo M [] cs
    else splitWsGo M (cur ++ [c]) cs

/-- Python `str.split()`: maximal non-whitespace runs, no empties. -/
def pySplitWs (M : CharModel) (l : List Char) : List (List Char) :=
  splitWsGo M [] l

/-- Stable insertion of `x` into a sorted list: `x` goes before `y` only
when `x` is strictly earlier in the preorder `le`. -/
def insSorted {α : Type} (le : α → α → Bool) (x : α) : List α → List α
  | [] => [x]
  | y :: ys => if le x y && ! le y x then x :: y :: ys else y :: insSorted le x ys

/-- A stable sort with respect to the total preorder `le`: the model of
Python's (stable) `sorted(...)` and `list.sort(...)`. -/
def pySorted {α : Type} (le : α → α → Bool) (l : List α) : List α :=
  l.foldl (fun acc x => insSorted le x acc) []

/-- Lexicographic comparison of character lists by code point — Python's
string order. -/
def listCharLe : List Char → List Char → Bool
  | [], _ => true
  | _ :: _, [] => false
  | c :: cs, d :: ds =>
    if c.toNat < d.toNat then true
    else if d.toNat < c.toNat then false
    else listCharLe cs ds

/-- Python's `<=` on strings: code-point lexicographic. -/
def pyStrLe (a b : String) : Bool :=
  listCharLe a.data b.data

/-- Ascending string sort (`sorted(...)` on strings). -/
def sortStr (l : List String) : List String :=
  pySorted pyStrLe l

/-- Python `str.capitalize()`: upper-case the first character, lower-case
the rest. -/
def pyCapitalize (M : CharModel) (w : List Char) : List Char :=
  match w with
  | [] => []
  | c :: cs => M.upper c ++ cs.flatMap M.lower

/-- `' '.join(word.capitalize() for word in s.split())`. -/
def titleCase (M : CharModel) (s : String) : String :=
  ⟨joinSpace ((pySplitWs M s.data).map (pyCapitalize M))⟩
where
  joinSpace : List (List Char) → List Char
    | [] => []
    | [w] => w
    | w :: ws => w ++ ' ' :: joinSpace ws

/-- The most-common-name choice for a group: normalize each raw name,
`max(set(normalized), key=normalized.count)` (first maximal element under
the first-insertion-order set model), rendered in title case; `''` when the
group has no names. -/
def chooseName (M : CharModel) (names : List String) : String :=
  match names with
  | [] => ""
  | _ =>
    let normalized := names.map (normalize_name M)
    titleCase M (pyMax (fun n => normalized.count n) (firstDedup normalized))

/-- The output record of one surviving group. -/
def emitGroup (M : CharModel) (g : GroupData) : OutputRow :=
  let yearsList := pySorted (fun a b => a ≤ b) g.years
  { author_name := chooseName M g.author_names
    author_ids := joinSemi (sortStr g.author_ids)
    works_count := g.work_ids.length
    specific_works_count := g.specific_work_ids.length
    journals_count := g.source_ids.length
    cited_by_count := (g.cited_by_per_work.map Prod.snd).sum
    min_year := yearsList.head?
    max_year := yearsList.getLast?
    institutions := joinSemi (sortStr g.institutions)
    countries := joinSemi (sortStr g.countries)
    affiliations_comment := joinSemi (sortStr g.affiliations) }

/-- The pre-sort output list: iterate the group table in insertion order,
drop groups with no flagged work, emit the rest. -/
def emitRows (M : CharModel) (s : AggState) : List OutputRow :=
  s.data.filterMap (fun p =>
    if p.2.specific_work_ids.length = 0 then none else some (emitGroup M p.2))

/-- The finalization phase: the emitted rows, stable-sorted by
`works_count` descending (`list.sort(key=..., reverse=True)`). -/
def finalize (M : CharModel) (s : AggState) : List OutputRow :=
  pySorted (fun a b => b.works_count ≤ a.works_count) (emitRows M s)

/-- `aggregate_authors` end to end: read every row, then finalize. -/
def aggregate_authors (M : CharModel) (rows : List Row) : List OutputRow :=
  finalize M (runAgg M rows)

/-- The ASCII instantiation of the character model: on ASCII input every
field is exactly Python's behavior (no decomposable or combining characters,
`\w` = alphanumeric or underscore, `\s` = whitespace, one-to-one case). -/
def asciiChars : CharModel :=
  { nfkd := fun c => [c]
    combining := fun _ => false
    isWordChar := fun c => c.isAlphanum || c == '_'
    isSpaceChar := fun c => c.isWhitespace
    lower := fun c => [c.toLower]
    upper := fun c => [c.toUpper] }

/-! ### The canonical form of a run's state

The resolution logic keys every valid row either by its stripped
`author_id` (when non-empty) or by the normalized stripped `author_name`.
`canonState` describes the loop state reached after a stream purely in
terms of that key function: the keys in first-occurrence order, each key's
group holding the fold of `mergeRow` over exactly its rows.  The theorem
`runAgg_eq_canonState` below proves the loop computes precisely this. -/

/-- An identity key: an external author id, or a normalized name. -/
inductive RKey where
  | byId : String → RKey
  | byName : String → RKey
deriving DecidableEq

/-- The identity key of a row: `none` for rows rejected by the
required-field check, otherwise the stripped `author_id` when non-empty,
else the normalized stripped name. -/
def rowKey (M : CharModel) (r : Row) : Option RKey :=
  if pyStrip M r.author_name = "" then none
  else if pyStrip M r.id = "" then none
  else if pyStrip M r.author_id ≠ "" then some (.byId (pyStrip M r.author_id))
  else some (.byName (normalize_name M (pyStrip M r.author_name)))

/-- The distinct keys of a stream, in first-occurrence order. -/
def keysOf (M : CharModel) (l : List Row) : List RKey :=
  firstDedup (l.filterMap (rowKey M))

/-- The rows of a stream carrying a given key. -/
def keyRows (M : CharModel) (l : List Row) (k : RKey) : List Row :=
  l.filter (fun r => rowKey M r = some k)

/-- The group built from a list of rows alone. -/
def refAgg (M : CharModel) (rows : List Row) : GroupData :=
  rows.foldl (mergeRow M) emptyGroup

/-- The id→group index determined by a key list starting at group id `n`. -/
def idMapOf (n : Nat) : List RKey → List (String × Nat)
  | [] => []
  | .byId x :: t => (x, n) :: idMapOf (n + 1) t
  | .byName _ :: t => idMapOf (n + 1) t

/-- The name→group index determined by a key list starting at id `n`. -/
def nameMapOf (n : Nat) : List RKey → List (String × Nat)
  | [] => []
  | .byName x :: t => (x, n) :: nameMapOf (n + 1) t
  | .byId _ :: t => nameMapOf (n + 1) t

/-- The group table determined by a key list and the stream, starting at
group id `n`. -/
def dataOf (M : CharModel) (n : Nat) (l : List Row) : List RKey → List (Nat × GroupData)
  | [] => []
  | k :: t => (n, refAgg M (keyRows M l k)) :: dataOf M (n + 1) l t

/-- The canonical description of the loop state after a stream. -/
def canonState (M : CharModel) (l : List Row) : AggState :=
  { idMap := idMapOf 0 (keysOf M l)
    nameMap := nameMapOf 0 (keysOf M l)
    counter := (keysOf M l).length
    data := dataOf M 0 l (keysOf M l) }

/-- The group contents a run associates to a key, when the key is known. -/
def contentsAt (s : AggState) (k : RKey) : Option GroupData :=
  match k with
  | .byId x => (alookup x s.idMap).bind (fun gid => alookup gid s.data)
  | .byName n => (alookup n s.nameMap).bind (fun gid => alookup gid s.data)

/-- Specification predicate: `m` is the strictly most frequent element of
`ns` (it beats every other distinct element of `ns`). -/
def isUniqueMax (ns : List String) (m : String) : Prop :=
  m ∈ firstDedup ns ∧ ∀ c ∈ firstDedup ns, c ≠ m → ns.count c < ns.count m

/-- Modelled from the spec: the specification's deterministic canonical
name — among the normalized forms with the highest occurrence count, take
the lexicographically smallest and render it in title case.  (Used only to
compare the spec's rule with the source's behavior; iterating the
candidates in ascending order makes the first maximal element the
lexicographically smallest one.) -/
def specCanonicalName (M : CharModel) (names : List String) : String :=
  match names with
  | [] => ""
  | _ =>
    let normalized := names.map (normalize_name M)
    titleCase M
      (pyMax (fun n => normalized.count n) (sortStr (firstDedup normalized)))

/-- Specification predicate: equality of group contents up to the
(unobservable) iteration order of the Python sets. -/
def groupPermEq (g g' : GroupData) : Prop :=
  List.Perm g.author_names g'.author_names ∧
  List.Perm g.author_ids g'.author_ids ∧
  List.Perm g.work_ids g'.work_ids ∧
  List.Perm g.specific_work_ids g'.specific_work_ids ∧
  List.Perm g.cited_by_per_work g'.cited_by_per_work ∧
  List.Perm g.years g'.years ∧
  List.Perm g.source_ids g'.source_ids ∧
  List.Perm g.institutions g'.institutions ∧
  List.Perm g.countries g'.countries ∧
  List.Perm g.affiliations g'.affiliations

/-- A row with the given name, external id, work id, flag column, citation
count and date; the remaining columns empty (sample-input helper). -/
def mkRow (name aid wid isr cited date : String) : Row :=
  { author_name := name, author_id := aid, id := wid, source_id := "",
    references_israel := isr, cited_by_count := cited,
    publication_date := date, institutions := "", countries := "",
    affiliations_comment := "" }

/-- The Unicode facts the normalizer's idempotence rests on: the space
character is whitespace, non-combining, NFKD- and case-fixed; and the
lower-case image of any word character that survives the filters is a
nonempty list of stable word characters (NFKD-fixed, non-combining, `\w`,
non-whitespace, non-hyphen, case-fixed).  These hold of the real Unicode
tables on the characters the normalizer can emit, and hold of `asciiChars`
on ASCII. -/
structure SaneModel (M : CharModel) : Prop where
  nfkd_space : M.nfkd ' ' = [' ']
  combining_space : M.combining ' ' = false
  space_space : M.isSpaceChar ' ' = true
  lower_space : M.lower ' ' = [' ']
  lower_ne : ∀ c, M.isWordChar c = true → M.isSpaceChar c = false → c ≠ '-' →
    M.lower c ≠ []
  lower_stable : ∀ c, M.isWordChar c = true → M.isSpaceChar c = false → c ≠ '-' →
    ∀ d ∈ M.lower c, M.nfkd d = [d] ∧ M.combining d = false ∧
      M.isWordChar d = true ∧ M.isSpaceChar d = false ∧ d ≠ '-' ∧ M.lower d = [d]

/-- A minimal concrete character model (identity decomposition and case,
lower-case Latin letters as word characters), used to instantiate
model-parametric theorems. -/
def flatChars : CharModel :=
  { nfkd := fun c => [c]
    combining := fun _ => false
    isWordChar := fun c => decide ('a' ≤ c ∧ c ≤ 'z')
    isSpaceChar := fun c => c == ' '
    lower := fun c => [c]
    upper := fun c => [c] }

/-! ## Theorems -/

/-- A row whose stripped `author_name` or work id is empty is skipped by
the two `continue`s before any state is touched. -/
theorem stepRow_of_invalid (M : CharModel) (s : AggState) (r : Row)
    (h : pyStrip M r.author_name = "" ∨ pyStrip M r.id = "") :
    stepRow M s r = s := by
  rcases h with h | h
  · simp [stepRow, h]
  · by_cases hn : pyStrip M r.author_name = ""
    · simp [stepRow, hn]
    · simp [stepRow, hn, h]

/-- Re-asserting an existing binding with its current value is a no-op. -/
theorem aupsert_self {α β : Type} [DecidableEq α] (k : α) (v : β) :
    ∀ m : List (α × β), alookup k m = some v → aupsert k v m = m := by
  intro m
  induction m with
  | nil => simp [alookup]
  | cons p t ih =>
    obtain ⟨a, b⟩ := p
    by_cases hak : a = k
    · subst hak
      intro hv
      obtain rfl : b = v := by simpa [alookup] using hv
      simp [aupsert]
    · simp only [alookup, if_neg hak]
      intro hv
      simp [aupsert, hak, ih hv]

/-- Upserting an absent key appends the binding. -/
theorem aupsert_of_not_mem {α β : Type} [DecidableEq α] (k : α) (v : β) :
    ∀ m : List (α × β), alookup k m = none → aupsert k v m = m ++ [(k, v)] := by
  intro m
  induction m with
  | nil => simp [aupsert]
  | cons p t ih =>
    obtain ⟨a, b⟩ := p
    by_cases hak : a = k
    · simp [alookup, hak]
    · simp only [alookup, if_neg hak]
      intro hv
      simp [aupsert, hak, ih hv]

/-- After an upsert, looking up the same key gives the new value. -/
theorem alookup_aupsert {α β : Type} [DecidableEq α] (k : α) (v : β) :
    ∀ m : List (α × β), alookup k (aupsert k v m) = some v := by
  intro m
  induction m with
  | nil => simp [aupsert, alookup]
  | cons p t ih =>
    obtain ⟨a, b⟩ := p
    by_cases hak : a = k
    · simp [aupsert, hak, alookup]
    · simp [aupsert, hak, alookup, ih]

/-- Upserting one key leaves other keys' lookups unchanged. -/
theorem alookup_aupsert_ne {α β : Type} [DecidableEq α] (k j : α) (v : β)
    (hkj : j ≠ k) :
    ∀ m : List (α × β), alookup j (aupsert k v m) = alookup j m := by
  have hkj' : k ≠ j := Ne.symm hkj
  intro m
  induction m with
  | nil => simp [aupsert, alookup, hkj']
  | cons p t ih =>
    obtain ⟨a, b⟩ := p
    by_cases hak : a = k
    · subst hak
      simp [aupsert, alookup, hkj']
    · simp [aupsert, hak, alookup, ih]

/-- Updating under a present key applies `f` in place. -/
theorem alookup_dupdate {α β : Type} [DecidableEq α] (k : α) (f : β → β)
    (dflt : β) :
    ∀ m : List (α × β),
      alookup k (dupdate k f dflt m) = some (f ((alookup k m).getD dflt)) := by
  intro m
  induction m with
  | nil => simp [dupdate, alookup]
  | cons p t ih =>
    obtain ⟨a, b⟩ := p
    by_cases hak : a = k
    · simp [dupdate, hak, alookup]
    · simp [dupdate, hak, alookup, ih]

/-- Updating one key leaves other keys' lookups unchanged. -/
theorem alookup_dupdate_ne {α β : Type} [DecidableEq α] (k j : α) (f : β → β)
    (dflt : β) (hkj : j ≠ k) :
    ∀ m : List (α × β), alookup j (dupdate k f dflt m) = alookup j m := by
  have hkj' : k ≠ j := Ne.symm hkj
  intro m
  induction m with
  | nil => simp [dupdate, alookup, hkj']
  | cons p t ih =>
    obtain ⟨a, b⟩ := p
    by_cases hak : a = k
    · subst hak
      simp [dupdate, alookup, hkj']
    · simp [dupdate, hak, alookup, ih]

/-- Membership after a `dedupInsert`. -/
theorem mem_dedupInsert {α : Type} [DecidableEq α] (l : List α) (x a : α) :
    a ∈ dedupInsert l x ↔ a ∈ l ∨ a = x := by
  by_cases h : x ∈ l
  · simp only [dedupInsert, if_pos h]
    constructor
    · exact Or.inl
    · rintro (ha | rfl)
      · exact ha
      · exact h
  · simp [dedupInsert, h]

/-- Membership in the base set survives `insertAll`. -/
theorem mem_insertAll_left {α : Type} [DecidableEq α] (xs : List α) :
    ∀ (s : List α) (a : α), a ∈ s → a ∈ insertAll s xs := by
  induction xs with
  | nil => intro s a ha; exact ha
  | cons x t ih =>
    intro s a ha
    exact ih (dedupInsert s x) a ((mem_dedupInsert s x a).mpr (Or.inl ha))

/-- Every inserted element is in the result of `insertAll`. -/
theorem mem_insertAll_self {α : Type} [DecidableEq α] (xs : List α) :
    ∀ (s : List α) (x : α), x ∈ xs → x ∈ insertAll s xs := by
  induction xs with
  | nil => intro s x hx; cases hx
  | cons y t ih =>
    intro s x hx
    rcases List.mem_cons.mp hx with rfl | hx
    · exact mem_insertAll_left t (dedupInsert s x) x
        ((mem_dedupInsert s x x).mpr (Or.inr rfl))
    · exact ih (dedupInsert s y) x hx

/-- Inserting only already-present elements is a no-op. -/
theorem insertAll_of_mem {α : Type} [DecidableEq α] (xs : List α) :
    ∀ s : List α, (∀ x ∈ xs, x ∈ s) → insertAll s xs = s := by
  induction xs with
  | nil => intro s _; rfl
  | cons y t ih =>
    intro s h
    have hy : y ∈ s := h y (List.mem_cons_self y t)
    have : insertAll s (y :: t) = insertAll (dedupInsert s y) t := rfl
    rw [this, dedupInsert, if_pos hy]
    exact ih s (fun x hx => h x (List.mem_cons_of_mem y hx))

/-- `insertAll` is idempotent. -/
theorem insertAll_idem {α : Type} [DecidableEq α] (s xs : List α) :
    insertAll (insertAll s xs) xs = insertAll s xs :=
  insertAll_of_mem xs (insertAll s xs) (fun x hx => mem_insertAll_self xs s x hx)

/-- When a key is absent, appending its binding makes it found. -/
theorem alookup_append_self {α β : Type} [DecidableEq α] (k : α) (v : β) :
    ∀ m : List (α × β), alookup k m = none →
      alookup k (m ++ [(k, v)]) = some v := by
  intro m
  induction m with
  | nil => simp [alookup]
  | cons p t ih =>
    obtain ⟨a, b⟩ := p
    by_cases hak : a = k
    · simp [alookup, hak]
    · simp only [alookup, if_neg hak, List.cons_append]
      exact ih

/-- `dedupInsert` is idempotent. -/
theorem dedupInsert_idem {α : Type} [DecidableEq α] (l : List α) (x : α) :
    dedupInsert (dedupInsert l x) x = dedupInsert l x := by
  by_cases h : x ∈ l
  · simp [dedupInsert, h]
  · simp [dedupInsert, h]

/-- Merging the same row twice into a group is a no-op the second time:
every multi-valued field is a set insert and `cited_by_per_work` is guarded
by its own membership test. -/
theorem mergeRow_idem (M : CharModel) (g : GroupData) (r : Row) :
    mergeRow M (mergeRow M g r) r = mergeRow M g r := by
  have hcited :
      (match pyInt? r.cited_by_count with
        | some v =>
          match alookup (pyStrip M r.id) (mergeRow M g r).cited_by_per_work with
          | some _ => (mergeRow M g r).cited_by_per_work
          | none => (mergeRow M g r).cited_by_per_work ++ [(pyStrip M r.id, v)]
        | none => (mergeRow M g r).cited_by_per_work)
        = (mergeRow M g r).cited_by_per_work := by
    cases hv : pyInt? r.cited_by_count with
    | none => simp
    | some v =>
      have : alookup (pyStrip M r.id) (mergeRow M g r).cited_by_per_work
          = some ((alookup (pyStrip M r.id) g.cited_by_per_work).getD v) := by
        cases hl : alookup (pyStrip M r.id) g.cited_by_per_work with
        | some w => simp [mergeRow, hv, hl]
        | none => simp [mergeRow, hv, hl, alookup_append_self _ _ _ hl]
      simp [this]
  unfold mergeRow at hcited ⊢
  simp only at hcited ⊢
  cases hv : pyInt? r.cited_by_count <;>
  cases hy : yearOf r.publication_date <;>
  by_cases ha : pyStrip M r.author_id ≠ "" <;>
  by_cases hf : flagged M r <;>
    simp_all [dedupInsert_idem, insertAll_idem]

/-- A found binding survives appending. -/
theorem alookup_append_of_some {α β : Type} [DecidableEq α] (k : α) (v : β)
    (m' : List (α × β)) :
    ∀ m : List (α × β), alookup k m = some v →
      alookup k (m ++ m') = some v := by
  intro m
  induction m with
  | nil => simp [alookup]
  | cons p t ih =>
    obtain ⟨a, b⟩ := p
    by_cases hak : a = k
    · simp [alookup, hak]
    · simp only [alookup, if_neg hak, List.cons_append]
      exact ih

/-- Updating twice under an idempotent-on-values function equals once. -/
theorem dupdate_idem {α β : Type} [DecidableEq α] (k : α) (f : β → β)
    (dflt : β) (hf : ∀ b, f (f b) = f b) :
    ∀ m : List (α × β),
      dupdate k f dflt (dupdate k f dflt m) = dupdate k f dflt m := by
  intro m
  induction m with
  | nil => simp [dupdate, hf]
  | cons p t ih =>
    obtain ⟨a, b⟩ := p
    by_cases hak : a = k
    · simp [dupdate, hak, hf]
    · simp [dupdate, hak, ih]

/-- Upserting the same binding twice equals once. -/
theorem aupsert_aupsert {α β : Type} [DecidableEq α] (k : α) (v : β)
    (m : List (α × β)) : aupsert k v (aupsert k v m) = aupsert k v m :=
  aupsert_self k v _ (alookup_aupsert k v m)

/-- Resolution of an id-carrying row whose id is already indexed. -/
theorem resolveGroup_id_hit (M : CharModel) (s : AggState) (r : Row)
    (gid : Nat) (ha : pyStrip M r.author_id ≠ "")
    (hl : alookup (pyStrip M r.author_id) s.idMap = some gid) :
    resolveGroup M s r = (gid, s) := by
  simp [resolveGroup, ha, hl]

/-- Resolution of an id-carrying row found by the linear group scan. -/
theorem resolveGroup_id_scan (M : CharModel) (s : AggState) (r : Row)
    (gid : Nat) (ha : pyStrip M r.author_id ≠ "")
    (hl : alookup (pyStrip M r.author_id) s.idMap = none)
    (hf : findGroupWithId (pyStrip M r.author_id) s.data = some gid) :
    resolveGroup M s r =
      (gid, { s with idMap := aupsert (pyStrip M r.author_id) gid s.idMap }) := by
  simp [resolveGroup, ha, hl, hf]

/-- Resolution of an id-carrying row with a fresh id: a new group. -/
theorem resolveGroup_id_fresh (M : CharModel) (s : AggState) (r : Row)
    (ha : pyStrip M r.author_id ≠ "")
    (hl : alookup (pyStrip M r.author_id) s.idMap = none)
    (hf : findGroupWithId (pyStrip M r.author_id) s.data = none) :
    resolveGroup M s r =
      (s.counter,
       { s with
         idMap := aupsert (pyStrip M r.author_id) s.counter s.idMap
         counter := s.counter + 1 }) := by
  simp [resolveGroup, ha, hl, hf]

/-- Resolution of an id-less row whose normalized name is indexed. -/
theorem resolveGroup_name_hit (M : CharModel) (s : AggState) (r : Row)
    (gid : Nat) (ha : pyStrip M r.author_id = "")
    (hl : alookup (normalize_name M (pyStrip M r.author_name)) s.nameMap
      = some gid) :
    resolveGroup M s r = (gid, s) := by
  simp [resolveGroup, ha, hl]

/-- Resolution of an id-less row with a fresh normalized name. -/
theorem resolveGroup_name_fresh (M : CharModel) (s : AggState) (r : Row)
    (ha : pyStrip M r.author_id = "")
    (hl : alookup (normalize_name M (pyStrip M r.author_name)) s.nameMap
      = none) :
    resolveGroup M s r =
      (s.counter,
       { s with
         nameMap := aupsert (normalize_name M (pyStrip M r.author_name))
           s.counter s.nameMap
         counter := s.counter + 1 }) := by
  simp [resolveGroup, ha, hl]

/-- The state a valid row produces, in terms of `resolveGroup`. -/
theorem stepRow_of_valid (M : CharModel) (s : AggState) (r : Row)
    (hname : pyStrip M r.author_name ≠ "") (hwid : pyStrip M r.id ≠ "") :
    stepRow M s r =
      { (resolveGroup M s r).2 with
        data := dupdate (resolveGroup M s r).1 (fun g => mergeRow M g r)
          emptyGroup (resolveGroup M s r).2.data
        idMap :=
          if pyStrip M r.author_id ≠ "" then
            aupsert (pyStrip M r.author_id) (resolveGroup M s r).1
              (resolveGroup M s r).2.idMap
          else (resolveGroup M s r).2.idMap } := by
  simp [stepRow, hname, hwid]

/-- Feeding one row twice in a row leaves the whole loop state exactly as
after the first time. -/
theorem stepRow_idem (M : CharModel) (s : AggState) (r : Row) :
    stepRow M (stepRow M s r) r = stepRow M s r := by
  by_cases hname : pyStrip M r.author_name = ""
  · rw [stepRow_of_invalid M _ r (Or.inl hname), stepRow_of_invalid M s r (Or.inl hname)]
  by_cases hwid : pyStrip M r.id = ""
  · rw [stepRow_of_invalid M _ r (Or.inr hwid), stepRow_of_invalid M s r (Or.inr hwid)]
  have hmerge : ∀ g, (fun g => mergeRow M g r) ((fun g => mergeRow M g r) g)
      = (fun g => mergeRow M g r) g :=
    fun g => mergeRow_idem M g r
  have hdup : ∀ (gid : Nat) (d : List (Nat × GroupData)),
      dupdate gid (fun g => mergeRow M g r) emptyGroup
      (dupdate gid (fun g => mergeRow M g r) emptyGroup d)
      = dupdate gid (fun g => mergeRow M g r) emptyGroup d :=
    fun gid d => dupdate_idem gid (fun g => mergeRow M g r) emptyGroup hmerge d
  by_cases ha : pyStrip M r.author_id = ""
  · -- id-less row: the normalized name is indexed after the first step.
    cases hl : alookup (normalize_name M (pyStrip M r.author_name)) s.nameMap with
    | some gid =>
      have h1 := stepRow_of_valid M s r hname hwid
      rw [resolveGroup_name_hit M s r gid ha hl] at h1
      simp only [ha, ne_eq, not_true_eq_false, if_false, ite_false] at h1
      have h2 := stepRow_of_valid M (stepRow M s r) r hname hwid
      rw [resolveGroup_name_hit M (stepRow M s r) r gid ha (by rw [h1]; exact hl)] at h2
      simp only [ha, ne_eq, not_true_eq_false, ite_false] at h2
      rw [h2, h1]
      simp [hdup]
    | none =>
      have h1 := stepRow_of_valid M s r hname hwid
      rw [resolveGroup_name_fresh M s r ha hl] at h1
      simp only [ha, ne_eq, not_true_eq_false, ite_false] at h1
      have hl2 : alookup (normalize_name M (pyStrip M r.author_name))
          (stepRow M s r).nameMap = some s.counter := by
        rw [h1]; exact alookup_aupsert _ _ _
      have h2 := stepRow_of_valid M (stepRow M s r) r hname hwid
      rw [resolveGroup_name_hit M (stepRow M s r) r s.counter ha hl2] at h2
      simp only [ha, ne_eq, not_true_eq_false, ite_false] at h2
      rw [h2, h1]
      simp [hdup]
  · -- id-carrying row: the id is indexed after the first step.
    have key : ∀ (gid : Nat) (s1 : AggState), stepRow M s r =
        { s1 with
          data := dupdate gid (fun g => mergeRow M g r) emptyGroup s1.data
          idMap := aupsert (pyStrip M r.author_id) gid s1.idMap } →
        stepRow M (stepRow M s r) r = stepRow M s r := by
      intro gid s1 h1
      have hl2 : alookup (pyStrip M r.author_id) (stepRow M s r).idMap
          = some gid := by
        rw [h1]; exact alookup_aupsert _ _ _
      have h2 := stepRow_of_valid M (stepRow M s r) r hname hwid
      rw [resolveGroup_id_hit M (stepRow M s r) r gid ha hl2] at h2
      simp only [ha, ne_eq, not_false_eq_true, if_true, ite_true] at h2
      rw [h2, h1]
      simp [hdup, aupsert_aupsert]
    cases hl : alookup (pyStrip M r.author_id) s.idMap with
    | some gid =>
      have h1 := stepRow_of_valid M s r hname hwid
      rw [resolveGroup_id_hit M s r gid ha hl] at h1
      simp only [ha, ne_eq, not_false_eq_true, if_true, ite_true] at h1
      exact key gid s h1
    | none =>
      cases hf : findGroupWithId (pyStrip M r.author_id) s.data with
      | some gid =>
        have h1 := stepRow_of_valid M s r hname hwid
        rw [resolveGroup_id_scan M s r gid ha hl hf] at h1
        simp only [ha, ne_eq, not_false_eq_true, if_true, ite_true] at h1
        rw [aupsert_aupsert] at h1
        exact key gid { s with idMap := aupsert (pyStrip M r.author_id) gid s.idMap }
          (by rw [h1]; simp [aupsert_aupsert])
      | none =>
        have h1 := stepRow_of_valid M s r hname hwid
        rw [resolveGroup_id_fresh M s r ha hl hf] at h1
        simp only [ha, ne_eq, not_false_eq_true, if_true, ite_true] at h1
        exact key s.counter
          { s with
            idMap := aupsert (pyStrip M r.author_id) s.counter s.idMap
            counter := s.counter + 1 }
          (by rw [h1])

/-- Merging any row never changes an already-stored `cited_by_per_work`
value (first-write-wins). -/
theorem mergeRow_cited_preserved (M : CharModel) (g : GroupData) (r : Row)
    (w : String) (v : Int) (hv : alookup w g.cited_by_per_work = some v) :
    alookup w (mergeRow M g r).cited_by_per_work = some v := by
  unfold mergeRow
  simp only
  cases hp : pyInt? r.cited_by_count with
  | none => exact hv
  | some u =>
    cases hl : alookup (pyStrip M r.id) g.cited_by_per_work with
    | some z => exact hv
    | none =>
      exact alookup_append_of_some w v [(pyStrip M r.id, u)] _ hv

/-- Group resolution never touches the group table itself. -/
theorem resolveGroup_data (M : CharModel) (s : AggState) (r : Row) :
    (resolveGroup M s r).2.data = s.data := by
  by_cases ha : pyStrip M r.author_id = ""
  · cases hl : alookup (normalize_name M (pyStrip M r.author_name)) s.nameMap with
    | some gid => rw [resolveGroup_name_hit M s r gid ha hl]
    | none => rw [resolveGroup_name_fresh M s r ha hl]
  · cases hl : alookup (pyStrip M r.author_id) s.idMap with
    | some gid => rw [resolveGroup_id_hit M s r gid ha hl]
    | none =>
      cases hf : findGroupWithId (pyStrip M r.author_id) s.data with
      | some gid => rw [resolveGroup_id_scan M s r gid ha hl hf]
      | none => rw [resolveGroup_id_fresh M s r ha hl hf]

/-- The group table after one valid row: the resolved group updated in
place (or appended) with `mergeRow`. -/
theorem stepRow_data (M : CharModel) (s : AggState) (r : Row)
    (hname : pyStrip M r.author_name ≠ "") (hwid : pyStrip M r.id ≠ "") :
    (stepRow M s r).data =
      dupdate (resolveGroup M s r).1 (fun g => mergeRow M g r) emptyGroup
        s.data := by
  rw [stepRow_of_valid M s r hname hwid]
  simp [resolveGroup_data]

/-- A stored `cited_by_per_work` value survives any subsequent row. -/
theorem stepRow_cited_preserved (M : CharModel) (s : AggState) (r : Row)
    (gid : Nat) (g : GroupData) (w : String) (v : Int)
    (hg : alookup gid s.data = some g)
    (hv : alookup w g.cited_by_per_work = some v) :
    ∃ g2, alookup gid (stepRow M s r).data = some g2 ∧
      alookup w g2.cited_by_per_work = some v := by
  by_cases hname : pyStrip M r.author_name = ""
  · exact ⟨g, by rw [stepRow_of_invalid M s r (Or.inl hname)]; exact hg, hv⟩
  by_cases hwid : pyStrip M r.id = ""
  · exact ⟨g, by rw [stepRow_of_invalid M s r (Or.inr hwid)]; exact hg, hv⟩
  rw [stepRow_data M s r hname hwid]
  by_cases hgid : gid = (resolveGroup M s r).1
  · subst hgid
    refine ⟨mergeRow M g r, ?_, mergeRow_cited_preserved M g r w v hv⟩
    rw [alookup_dupdate, hg]
    rfl
  · exact ⟨g, by rw [alookup_dupdate_ne _ _ _ _ hgid]; exact hg, hv⟩

/-- **C5**: for every group state and row, merging the same row a second
time leaves the whole loop state unchanged (all multi-valued fields are
sets), and once `cited_by_per_work` holds a value for a work id, no
subsequent row — whatever it carries — ever changes that value. -/
theorem claim_C5_idempotent_merge (M : CharModel) (s : AggState)
    (r r2 : Row) (gid : Nat) (g : GroupData) (w : String) (v : Int)
    (hg : alookup gid s.data = some g)
    (hv : alookup w g.cited_by_per_work = some v) :
    stepRow M (stepRow M s r) r = stepRow M s r ∧
      ∃ g2, alookup gid (stepRow M s r2).data = some g2 ∧
        alookup w g2.cited_by_per_work = some v :=
  ⟨stepRow_idem M s r, stepRow_cited_preserved M s r2 gid g w v hg hv⟩

/-- Witness for C5 at a concrete state and rows. -/
theorem claim_C5_witness :
    alookup 0 (runAgg asciiChars [mkRow "A" "X" "W" "yes" "5" ""]).data
        = some (mergeRow asciiChars emptyGroup (mkRow "A" "X" "W" "yes" "5" "")) ∧
    alookup "W" (mergeRow asciiChars emptyGroup
        (mkRow "A" "X" "W" "yes" "5" "")).cited_by_per_work = some 5 ∧
    (stepRow asciiChars
        (stepRow asciiChars (runAgg asciiChars [mkRow "A" "X" "W" "yes" "5" ""])
          (mkRow "A" "X" "W2" "" "" ""))
        (mkRow "A" "X" "W2" "" "" "")
      = stepRow asciiChars (runAgg asciiChars [mkRow "A" "X" "W" "yes" "5" ""])
          (mkRow "A" "X" "W2" "" "" "") ∧
      ∃ g2, alookup 0 (stepRow asciiChars
          (runAgg asciiChars [mkRow "A" "X" "W" "yes" "5" ""])
          (mkRow "A" "X" "W" "" "9" "")).data = some g2 ∧
        alookup "W" g2.cited_by_per_work = some 5) :=
  ⟨by decide, by decide,
    claim_C5_idempotent_merge asciiChars
      (runAgg asciiChars [mkRow "A" "X" "W" "yes" "5" ""])
      (mkRow "A" "X" "W2" "" "" "") (mkRow "A" "X" "W" "" "9" "") 0
      (mergeRow asciiChars emptyGroup (mkRow "A" "X" "W" "yes" "5" ""))
      "W" 5 (by decide) (by decide)⟩

/-- **C7**: a row whose `author_name` or work id is empty after trimming is
a no-op on the whole state: no group created or mutated, both identity maps
unchanged. -/
theorem claim_C7_reject_invalid (M : CharModel) (s : AggState) (r : Row)
    (h : pyStrip M r.author_name = "" ∨ pyStrip M r.id = "") :
    stepRow M s r = s :=
  stepRow_of_invalid M s r h

/-- Witness for C7: a row with a whitespace-only name, and one with an
empty work id, leave the initial state untouched. -/
theorem claim_C7_witness :
    stepRow asciiChars (runAgg asciiChars [mkRow "A" "X" "W" "yes" "5" ""])
        (mkRow " " "Y" "W9" "yes" "3" "")
      = runAgg asciiChars [mkRow "A" "X" "W" "yes" "5" ""] :=
  claim_C7_reject_invalid asciiChars _ _ (Or.inl (by decide))

/-- Insertion keeps the list's elements plus the new one. -/
theorem insSorted_perm {α : Type} (le : α → α → Bool) (x : α) :
    ∀ l : List α, List.Perm (insSorted le x l) (x :: l) := by
  intro l
  induction l with
  | nil => exact List.Perm.refl _
  | cons y ys ih =>
    by_cases h : le x y && ! le y x
    · simp [insSorted, h]
    · simp only [insSorted, h, if_false, ite_false]
      exact (ih.cons y).trans (List.Perm.swap x y ys)

/-- `pySorted` permutes its input. -/
theorem pySorted_perm {α : Type} (le : α → α → Bool) (l : List α) :
    List.Perm (pySorted le l) l := by
  suffices h : ∀ (l acc : List α),
      List.Perm (l.foldl (fun a x => insSorted le x a) acc) (acc ++ l) by
    simpa using h l []
  intro l
  induction l with
  | nil => intro acc; simp
  | cons x t ih =>
    intro acc
    exact (ih (insSorted le x acc)).trans
      (((insSorted_perm le x acc).append_right t).trans List.perm_middle.symm)

/-- Everything the finalizer emits has at least one flagged work. -/
theorem finalize_specific_pos (M : CharModel) (s : AggState)
    (r : OutputRow) (hr : r ∈ finalize M s) : 1 ≤ r.specific_works_count := by
  unfold finalize at hr
  have hr2 := (pySorted_perm _ _).mem_iff.mp hr
  obtain ⟨p, _, hp⟩ := List.mem_filterMap.mp hr2
  by_cases h0 : p.2.specific_work_ids.length = 0
  · simp [h0] at hp
  · simp only [h0, if_false, ite_false, Option.some.injEq] at hp
    subst hp
    exact Nat.one_le_iff_ne_zero.mpr h0

/-- **C8**: every output row of a full run has `specific_works_count ≥ 1`;
groups with no flagged work are never emitted. -/
theorem claim_C8_specific_positive (M : CharModel) (rows : List Row)
    (r : OutputRow) (hr : r ∈ aggregate_authors M rows) :
    1 ≤ r.specific_works_count :=
  finalize_specific_pos M (runAgg M rows) r hr

/-- Witness for C8 on a one-row stream. -/
theorem claim_C8_witness :
    1 ≤ (emitGroup asciiChars (mergeRow asciiChars emptyGroup
      (mkRow "A" "X" "W" "yes" "" ""))).specific_works_count :=
  claim_C8_specific_positive asciiChars [mkRow "A" "X" "W" "yes" "" ""]
    (emitGroup asciiChars (mergeRow asciiChars emptyGroup
      (mkRow "A" "X" "W" "yes" "" ""))) (by decide)

/-- Membership under the fold of `dedupInsert`. -/
theorem mem_foldl_dedupInsert {α : Type} [DecidableEq α] :
    ∀ (l acc : List α) (a : α),
      a ∈ l.foldl dedupInsert acc ↔ a ∈ acc ∨ a ∈ l := by
  intro l
  induction l with
  | nil => intro acc a; simp
  | cons x t ih =>
    intro acc a
    have : (x :: t).foldl dedupInsert acc = t.foldl dedupInsert (dedupInsert acc x) := rfl
    rw [this, ih, mem_dedupInsert]
    constructor
    · rintro ((ha | rfl) | ha)
      · exact Or.inl ha
      · exact Or.inr (List.mem_cons_self _ _)
      · exact Or.inr (List.mem_cons_of_mem _ ha)
    · rintro (ha | ha)
      · exact Or.inl (Or.inl ha)
      · rcases List.mem_cons.mp ha with rfl | ha
        · exact Or.inl (Or.inr rfl)
        · exact Or.inr ha

/-- Membership in the first-occurrence dedup. -/
theorem mem_firstDedup {α : Type} [DecidableEq α] (l : List α) (a : α) :
    a ∈ firstDedup l ↔ a ∈ l := by
  unfold firstDedup
  rw [mem_foldl_dedupInsert]
  simp

/-- `dedupInsert` keeps lists duplicate-free. -/
theorem nodup_dedupInsert {α : Type} [DecidableEq α] (l : List α) (x : α)
    (h : l.Nodup) : (dedupInsert l x).Nodup := by
  by_cases hx : x ∈ l
  · simpa [dedupInsert, hx] using h
  · simp only [dedupInsert, if_neg hx]
    exact List.Nodup.append h (List.nodup_singleton x)
      (by simpa using hx)

/-- The first-occurrence dedup is duplicate-free. -/
theorem nodup_firstDedup {α : Type} [DecidableEq α] (l : List α) :
    (firstDedup l).Nodup := by
  suffices h : ∀ (l acc : List α), acc.Nodup → (l.foldl dedupInsert acc).Nodup
    from h l [] List.nodup_nil
  intro l
  induction l with
  | nil => intro acc h; exact h
  | cons x t ih => intro acc h; exact ih _ (nodup_dedupInsert acc x h)

/-- Appending one element to the input of `firstDedup`. -/
theorem firstDedup_append_one {α : Type} [DecidableEq α] (l : List α) (x : α) :
    firstDedup (l ++ [x]) = dedupInsert (firstDedup l) x := by
  unfold firstDedup
  rw [List.foldl_append]
  rfl

/-- The key set after a rejected row. -/
theorem keysOf_append_none (M : CharModel) (l : List Row) (r : Row)
    (h : rowKey M r = none) : keysOf M (l ++ [r]) = keysOf M l := by
  unfold keysOf
  rw [List.filterMap_append]
  simp [h]

/-- The key set after an accepted row. -/
theorem keysOf_append_some (M : CharModel) (l : List Row) (r : Row)
    (k : RKey) (h : rowKey M r = some k) :
    keysOf M (l ++ [r]) = dedupInsert (keysOf M l) k := by
  unfold keysOf
  rw [List.filterMap_append]
  simp only [h, List.filterMap_cons, List.filterMap_nil]
  exact firstDedup_append_one _ k

/-- A key is known exactly when some row of the stream carries it. -/
theorem mem_keysOf (M : CharModel) (l : List Row) (k : RKey) :
    k ∈ keysOf M l ↔ ∃ r ∈ l, rowKey M r = some k := by
  unfold keysOf
  rw [mem_firstDedup, List.mem_filterMap]

/-- The key set is duplicate-free. -/
theorem keysOf_nodup (M : CharModel) (l : List Row) : (keysOf M l).Nodup :=
  nodup_firstDedup _

/-- The rows of a key after appending one row. -/
theorem keyRows_append (M : CharModel) (l : List Row) (r : Row) (k : RKey) :
    keyRows M (l ++ [r]) k =
      keyRows M l k ++ (if rowKey M r = some k then [r] else []) := by
  unfold keyRows
  rw [List.filter_append]
  by_cases h : rowKey M r = some k <;> simp [h]

/-- An unknown key has no rows. -/
theorem keyRows_eq_nil (M : CharModel) (l : List Row) (k : RKey)
    (h : k ∉ keysOf M l) : keyRows M l k = [] := by
  unfold keyRows
  rw [List.filter_eq_nil_iff]
  intro r hr hk
  exact h ((mem_keysOf M l k).mpr ⟨r, hr, by simpa using hk⟩)

/-- `idMapOf` over a key list extended by an id key. -/
theorem idMapOf_append_id (x : String) :
    ∀ (ks : List RKey) (n : Nat),
      idMapOf n (ks ++ [RKey.byId x]) = idMapOf n ks ++ [(x, n + ks.length)] := by
  intro ks
  induction ks with
  | nil => intro n; simp [idMapOf]
  | cons h t ih =>
    intro n
    have harith : n + 1 + t.length = n + (t.length + 1) := by omega
    cases h with
    | byId y => simp [idMapOf, ih (n + 1), harith]
    | byName y => simp [idMapOf, ih (n + 1), harith]

/-- `idMapOf` ignores an appended name key. -/
theorem idMapOf_append_name (x : String) :
    ∀ (ks : List RKey) (n : Nat),
      idMapOf n (ks ++ [RKey.byName x]) = idMapOf n ks := by
  intro ks
  induction ks with
  | nil => intro n; simp [idMapOf]
  | cons h t ih =>
    intro n
    cases h with
    | byId y => simp [idMapOf, ih (n + 1)]
    | byName y => simp [idMapOf, ih (n + 1)]

/-- `nameMapOf` over a key list extended by a name key. -/
theorem nameMapOf_append_name (x : String) :
    ∀ (ks : List RKey) (n : Nat),
      nameMapOf n (ks ++ [RKey.byName x]) = nameMapOf n ks ++ [(x, n + ks.length)] := by
  intro ks
  induction ks with
  | nil => intro n; simp [nameMapOf]
  | cons h t ih =>
    intro n
    have harith : n + 1 + t.length = n + (t.length + 1) := by omega
    cases h with
    | byName y => simp [nameMapOf, ih (n + 1), harith]
    | byId y => simp [nameMapOf, ih (n + 1), harith]

/-- `nameMapOf` ignores an appended id key. -/
theorem nameMapOf_append_id (x : String) :
    ∀ (ks : List RKey) (n : Nat),
      nameMapOf n (ks ++ [RKey.byId x]) = nameMapOf n ks := by
  intro ks
  induction ks with
  | nil => intro n; simp [nameMapOf]
  | cons h t ih =>
    intro n
    cases h with
    | byId y => simp [nameMapOf, ih (n + 1)]
    | byName y => simp [nameMapOf, ih (n + 1)]

/-- `dataOf` over an extended key list. -/
theorem dataOf_append (M : CharModel) (l : List Row) (k : RKey) :
    ∀ (ks : List RKey) (n : Nat),
      dataOf M n l (ks ++ [k]) =
        dataOf M n l ks ++ [(n + ks.length, refAgg M (keyRows M l k))] := by
  intro ks
  induction ks with
  | nil => intro n; simp [dataOf]
  | cons h t ih =>
    intro n
    have harith : n + 1 + t.length = n + (t.length + 1) := by omega
    simp [dataOf, ih (n + 1), harith]

/-- `dataOf` only depends on each key's row list. -/
theorem dataOf_congr (M : CharModel) (l l' : List Row) :
    ∀ (ks : List RKey) (n : Nat),
      (∀ k ∈ ks, keyRows M l' k = keyRows M l k) →
      dataOf M n l' ks = dataOf M n l ks := by
  intro ks
  induction ks with
  | nil => intro n _; rfl
  | cons h t ih =>
    intro n hk
    simp only [dataOf, List.cons.injEq]
    exact ⟨by rw [hk h (List.mem_cons_self h t)],
      ih (n + 1) (fun k2 hk2 => hk k2 (List.mem_cons_of_mem h hk2))⟩

/-- An id absent from the keys is absent from the id map. -/
theorem alookup_idMapOf_none (x : String) :
    ∀ (ks : List RKey) (n : Nat), RKey.byId x ∉ ks →
      alookup x (idMapOf n ks) = none := by
  intro ks
  induction ks with
  | nil => intro n _; rfl
  | cons h t ih =>
    intro n hx
    cases h with
    | byId y =>
      have hyx : y ≠ x := by
        rintro rfl
        exact hx (List.mem_cons_self _ _)
      simp only [idMapOf, alookup, if_neg hyx]
      exact ih (n + 1) (fun hm => hx (List.mem_cons_of_mem _ hm))
    | byName y =>
      simp only [idMapOf]
      exact ih (n + 1) (fun hm => hx (List.mem_cons_of_mem _ hm))

/-- A name absent from the keys is absent from the name map. -/
theorem alookup_nameMapOf_none (x : String) :
    ∀ (ks : List RKey) (n : Nat), RKey.byName x ∉ ks →
      alookup x (nameMapOf n ks) = none := by
  intro ks
  induction ks with
  | nil => intro n _; rfl
  | cons h t ih =>
    intro n hx
    cases h with
    | byName y =>
      have hyx : y ≠ x := by
        rintro rfl
        exact hx (List.mem_cons_self _ _)
      simp only [nameMapOf, alookup, if_neg hyx]
      exact ih (n + 1) (fun hm => hx (List.mem_cons_of_mem _ hm))
    | byId y =>
      simp only [nameMapOf]
      exact ih (n + 1) (fun hm => hx (List.mem_cons_of_mem _ hm))

/-- The id map finds an indexed id at its key's position. -/
theorem alookup_idMapOf_pos (x : String) :
    ∀ (ks1 ks2 : List RKey) (n : Nat), RKey.byId x ∉ ks1 →
      alookup x (idMapOf n (ks1 ++ RKey.byId x :: ks2)) = some (n + ks1.length) := by
  intro ks1
  induction ks1 with
  | nil =>
    intro ks2 n _
    simp [idMapOf, alookup]
  | cons h t ih =>
    intro ks2 n hx
    cases h with
    | byId y =>
      have hyx : y ≠ x := by
        rintro rfl
        exact hx (List.mem_cons_self _ _)
      simp only [List.cons_append, idMapOf, alookup, if_neg hyx, List.append_eq]
      rw [ih ks2 (n + 1) (fun hm => hx (List.mem_cons_of_mem _ hm))]
      simp
      omega
    | byName y =>
      simp only [List.cons_append, idMapOf, List.append_eq]
      rw [ih ks2 (n + 1) (fun hm => hx (List.mem_cons_of_mem _ hm))]
      simp
      omega

/-- The name map finds an indexed name at its key's position. -/
theorem alookup_nameMapOf_pos (x : String) :
    ∀ (ks1 ks2 : List RKey) (n : Nat), RKey.byName x ∉ ks1 →
      alookup x (nameMapOf n (ks1 ++ RKey.byName x :: ks2)) = some (n + ks1.length) := by
  intro ks1
  induction ks1 with
  | nil =>
    intro ks2 n _
    simp [nameMapOf, alookup]
  | cons h t ih =>
    intro ks2 n hx
    cases h with
    | byName y =>
      have hyx : y ≠ x := by
        rintro rfl
        exact hx (List.mem_cons_self _ _)
      simp only [List.cons_append, nameMapOf, alookup, if_neg hyx, List.append_eq]
      rw [ih ks2 (n + 1) (fun hm => hx (List.mem_cons_of_mem _ hm))]
      simp
      omega
    | byId y =>
      simp only [List.cons_append, nameMapOf, List.append_eq]
      rw [ih ks2 (n + 1) (fun hm => hx (List.mem_cons_of_mem _ hm))]
      simp
      omega

/-- Group ids listed by `dataOf` lie in `[n, n + ks.length)`. -/
theorem dataOf_key_bound (M : CharModel) (l : List Row) :
    ∀ (ks : List RKey) (n : Nat) (p : Nat × GroupData),
      p ∈ dataOf M n l ks → n ≤ p.1 ∧ p.1 < n + ks.length := by
  intro ks
  induction ks with
  | nil => intro n p hp; cases hp
  | cons h t ih =>
    intro n p hp
    rcases List.mem_cons.mp hp with rfl | hp
    · simp
    · have := ih (n + 1) p hp
      simp only [List.length_cons]
      omega

/-- Every group listed by `dataOf` is the reference aggregate of one key. -/
theorem mem_dataOf (M : CharModel) (l : List Row) :
    ∀ (ks : List RKey) (n : Nat) (p : Nat × GroupData),
      p ∈ dataOf M n l ks → ∃ k ∈ ks, p.2 = refAgg M (keyRows M l k) := by
  intro ks
  induction ks with
  | nil => intro n p hp; cases hp
  | cons h t ih =>
    intro n p hp
    rcases List.mem_cons.mp hp with rfl | hp
    · exact ⟨h, List.mem_cons_self _ _, rfl⟩
    · obtain ⟨k, hk, hpk⟩ := ih (n + 1) p hp
      exact ⟨k, List.mem_cons_of_mem _ hk, hpk⟩

/-- Updating an absent key appends its entry. -/
theorem dupdate_of_absent {α β : Type} [DecidableEq α] (k : α) (f : β → β)
    (dflt : β) :
    ∀ m : List (α × β), (∀ p ∈ m, p.1 ≠ k) →
      dupdate k f dflt m = m ++ [(k, f dflt)] := by
  intro m
  induction m with
  | nil => intro _; rfl
  | cons p t ih =>
    intro h
    obtain ⟨a, b⟩ := p
    have hak : a ≠ k := h (a, b) (List.mem_cons_self _ _)
    simp only [dupdate, if_neg hak, List.cons_append, List.cons.injEq, true_and]
    exact ih (fun q hq => h q (List.mem_cons_of_mem _ hq))

/-- In-place update of the middle entry of a `dataOf` table. -/
theorem dupdate_dataOf_mid (M : CharModel) (l : List Row) (k : RKey)
    (f : GroupData → GroupData) (dflt : GroupData) :
    ∀ (ks1 ks2 : List RKey) (n : Nat),
      dupdate (n + ks1.length) f dflt (dataOf M n l (ks1 ++ k :: ks2)) =
        dataOf M n l ks1 ++
          (n + ks1.length, f (refAgg M (keyRows M l k)))
            :: dataOf M (n + ks1.length + 1) l ks2 := by
  intro ks1
  induction ks1 with
  | nil =>
    intro ks2 n
    simp [dataOf, dupdate]
  | cons h t ih =>
    intro ks2 n
    have harith : n + (t.length + 1) = n + 1 + t.length := by omega
    have hne : ¬ n = n + 1 + t.length := by omega
    simp only [List.cons_append, dataOf, List.length_cons, List.append_eq]
    rw [harith]
    simp only [dupdate, if_neg hne]
    rw [ih ks2 (n + 1)]

/-- Membership in the accumulated `author_ids` of a row fold. -/
theorem mem_author_ids_foldl (M : CharModel) :
    ∀ (rows : List Row) (g : GroupData) (a : String),
      a ∈ (rows.foldl (mergeRow M) g).author_ids ↔
        a ∈ g.author_ids ∨
          ∃ r ∈ rows, pyStrip M r.author_id = a ∧ pyStrip M r.author_id ≠ "" := by
  intro rows
  induction rows with
  | nil => intro g a; simp
  | cons r t ih =>
    intro g a
    have hstep : (List.foldl (mergeRow M) g (r :: t)) =
        List.foldl (mergeRow M) (mergeRow M g r) t := rfl
    rw [hstep, ih]
    have hids : (mergeRow M g r).author_ids =
        if pyStrip M r.author_id ≠ "" then
          dedupInsert g.author_ids (pyStrip M r.author_id)
        else g.author_ids := rfl
    by_cases ha : pyStrip M r.author_id = ""
    · rw [hids]
      simp only [ha, ne_eq, not_true_eq_false, if_false, ite_false]
      constructor
      · rintro (h | ⟨r2, hr2, h2⟩)
        · exact Or.inl h
        · exact Or.inr ⟨r2, List.mem_cons_of_mem _ hr2, h2⟩
      · rintro (h | ⟨r2, hr2, h2⟩)
        · exact Or.inl h
        · rcases List.mem_cons.mp hr2 with rfl | hr2
          · exact absurd ha h2.2
          · exact Or.inr ⟨r2, hr2, h2⟩
    · rw [hids]
      simp only [ha, ne_eq, not_false_eq_true, if_true, ite_true,
        mem_dedupInsert]
      constructor
      · rintro ((h | rfl) | ⟨r2, hr2, h2⟩)
        · exact Or.inl h
        · exact Or.inr ⟨r, List.mem_cons_self _ _, rfl, ha⟩
        · exact Or.inr ⟨r2, List.mem_cons_of_mem _ hr2, h2⟩
      · rintro (h | ⟨r2, hr2, h2⟩)
        · exact Or.inl (Or.inl h)
        · rcases List.mem_cons.mp hr2 with rfl | hr2
          · exact Or.inl (Or.inr h2.1.symm)
          · exact Or.inr ⟨r2, hr2, h2⟩

/-- A scan over groups none of which hold the id finds nothing. -/
theorem findGroupWithId_eq_none (aid : String) :
    ∀ m : List (Nat × GroupData), (∀ p ∈ m, aid ∉ p.2.author_ids) →
      findGroupWithId aid m = none := by
  intro m
  induction m with
  | nil => intro _; rfl
  | cons p t ih =>
    intro h
    obtain ⟨gid, g⟩ := p
    have := h (gid, g) (List.mem_cons_self _ _)
    simp only [findGroupWithId, if_neg this]
    exact ih (fun q hq => h q (List.mem_cons_of_mem _ hq))

/-- Facts every accepted row key satisfies. -/
theorem rowKey_some_elim (M : CharModel) (r : Row) (k : RKey)
    (h : rowKey M r = some k) :
    pyStrip M r.author_name ≠ "" ∧ pyStrip M r.id ≠ "" ∧
      ((pyStrip M r.author_id ≠ "" ∧ k = .byId (pyStrip M r.author_id)) ∨
        (pyStrip M r.author_id = "" ∧
          k = .byName (normalize_name M (pyStrip M r.author_name)))) := by
  unfold rowKey at h
  by_cases hname : pyStrip M r.author_name = ""
  · simp [hname] at h
  by_cases hwid : pyStrip M r.id = ""
  · simp [hname, hwid] at h
  by_cases ha : pyStrip M r.author_id = ""
  · simp only [hname, hwid, ha, ne_eq, not_true_eq_false, if_false,
      ite_false, if_neg, Option.some.injEq] at h
    exact ⟨hname, hwid, Or.inr ⟨ha, h.symm⟩⟩
  · simp only [hname, hwid, ha, ne_eq, not_false_eq_true, if_true,
      ite_true, if_neg, Option.some.injEq] at h
    exact ⟨hname, hwid, Or.inl ⟨ha, h.symm⟩⟩

/-- The id-resolution scan finds nothing in a canonical table whose keys do
not include the id. -/
theorem findGroupWithId_dataOf_none (M : CharModel) (l : List Row)
    (aid : String) (ks : List RKey) (n : Nat)
    (hid : RKey.byId aid ∉ ks) :
    findGroupWithId aid (dataOf M n l ks) = none := by
  apply findGroupWithId_eq_none
  intro p hp hmem
  obtain ⟨k, hk, hpk⟩ := mem_dataOf M l ks n p hp
  rw [hpk] at hmem
  unfold refAgg at hmem
  rcases (mem_author_ids_foldl M _ emptyGroup aid).mp hmem with h0 | ⟨r, hr, hra, hne⟩
  · exact absurd h0 (by simp [emptyGroup])
  have hrk : rowKey M r = some k := by
    have := (List.mem_filter.mp hr).2
    simpa using this
  obtain ⟨_, _, hcase⟩ := rowKey_some_elim M r k hrk
  rcases hcase with ⟨hne2, rfl⟩ | ⟨heq, _⟩
  · rw [hra] at hk
    exact hid hk
  · exact hne (by rw [heq])

/-- `dataOf` distributes over key-list concatenation. -/
theorem dataOf_split (M : CharModel) (l : List Row) :
    ∀ (ks1 ks2 : List RKey) (n : Nat),
      dataOf M n l (ks1 ++ ks2) =
        dataOf M n l ks1 ++ dataOf M (n + ks1.length) l ks2 := by
  intro ks1
  induction ks1 with
  | nil => intro ks2 n; simp [dataOf]
  | cons h t ih =>
    intro ks2 n
    have harith : n + 1 + t.length = n + (t.length + 1) := by omega
    simp [dataOf, ih ks2 (n + 1), harith]

/-- A rejected row leaves the canonical state unchanged. -/
theorem canonState_append_none (M : CharModel) (l : List Row) (r : Row)
    (hk : rowKey M r = none) : canonState M (l ++ [r]) = canonState M l := by
  unfold canonState
  rw [keysOf_append_none M l r hk]
  have hrows : ∀ k ∈ keysOf M l, keyRows M (l ++ [r]) k = keyRows M l k := by
    intro k _
    rw [keyRows_append]
    simp [hk]
  rw [dataOf_congr M l (l ++ [r]) (keysOf M l) 0 hrows]

/-- An accepted row never changes the rows of other keys. -/
theorem keyRows_append_ne (M : CharModel) (l : List Row) (r : Row)
    (k k2 : RKey) (hk : rowKey M r = some k) (hne : k2 ≠ k) :
    keyRows M (l ++ [r]) k2 = keyRows M l k2 := by
  rw [keyRows_append]
  have : ¬ rowKey M r = some k2 := by
    rw [hk]
    simpa using fun h => hne h.symm
  simp [this]

/-- A valid row with a fresh id key extends the canonical state by a new
group. -/
theorem stepRow_canon_id_fresh (M : CharModel) (l : List Row) (r : Row)
    (aid : String) (hk : rowKey M r = some (RKey.byId aid))
    (hmem : RKey.byId aid ∉ keysOf M l) :
    stepRow M (canonState M l) r = canonState M (l ++ [r]) := by
  obtain ⟨hname, hwid, hcase⟩ := rowKey_some_elim M r (RKey.byId aid) hk
  rcases hcase with ⟨ha, heq⟩ | ⟨ha, heq⟩
  swap
  · cases heq
  obtain rfl : aid = pyStrip M r.author_id := by cases heq; rfl
  have hl : alookup (pyStrip M r.author_id) (canonState M l).idMap = none :=
    alookup_idMapOf_none _ (keysOf M l) 0 hmem
  have hf : findGroupWithId (pyStrip M r.author_id) (canonState M l).data = none :=
    findGroupWithId_dataOf_none M l _ (keysOf M l) 0 hmem
  rw [stepRow_of_valid M _ r hname hwid,
    resolveGroup_id_fresh M _ r ha hl hf]
  simp only [ha, ne_eq, not_false_eq_true, if_true, ite_true, aupsert_aupsert]
  unfold canonState
  rw [keysOf_append_some M l r _ hk]
  simp only [dedupInsert, if_neg hmem]
  have hcnt : (canonState M l).counter = (keysOf M l).length := rfl
  simp only [AggState.mk.injEq]
  refine ⟨?_, ?_, ?_, ?_⟩
  · -- id map
    show aupsert (pyStrip M r.author_id) (keysOf M l).length
        (idMapOf 0 (keysOf M l)) = idMapOf 0 (keysOf M l ++ [RKey.byId (pyStrip M r.author_id)])
    have hl2 : alookup (pyStrip M r.author_id) (idMapOf 0 (keysOf M l)) = none := hl
    rw [aupsert_of_not_mem _ _ _ hl2, idMapOf_append_id]
    simp
  · -- name map
    show nameMapOf 0 (keysOf M l)
        = nameMapOf 0 (keysOf M l ++ [RKey.byId (pyStrip M r.author_id)])
    rw [nameMapOf_append_id]
  · -- counter
    simp
  · -- data
    show dupdate (keysOf M l).length (fun g => mergeRow M g r) emptyGroup
        (dataOf M 0 l (keysOf M l))
      = dataOf M 0 (l ++ [r]) (keysOf M l ++ [RKey.byId (pyStrip M r.author_id)])
    rw [dupdate_of_absent _ _ _ _
        (fun p hp => by
          have := dataOf_key_bound M l (keysOf M l) 0 p hp
          omega),
      dataOf_append M (l ++ [r]) _ (keysOf M l) 0,
      dataOf_congr M l (l ++ [r]) (keysOf M l) 0
        (fun k2 hk2 => keyRows_append_ne M l r _ k2 hk
          (fun h => hmem (h ▸ hk2)))]
    have : keyRows M (l ++ [r]) (RKey.byId (pyStrip M r.author_id)) = [r] := by
      rw [keyRows_append, keyRows_eq_nil M l _ hmem]
      simp [hk]
    rw [this]
    simp [refAgg]

/-- A valid row with a fresh name key extends the canonical state by a new
group. -/
theorem stepRow_canon_name_fresh (M : CharModel) (l : List Row) (r : Row)
    (nn : String) (hk : rowKey M r = some (RKey.byName nn))
    (hmem : RKey.byName nn ∉ keysOf M l) :
    stepRow M (canonState M l) r = canonState M (l ++ [r]) := by
  obtain ⟨hname, hwid, hcase⟩ := rowKey_some_elim M r (RKey.byName nn) hk
  rcases hcase with ⟨ha, heq⟩ | ⟨ha, heq⟩
  · cases heq
  obtain rfl : nn = normalize_name M (pyStrip M r.author_name) := by cases heq; rfl
  have hl : alookup (normalize_name M (pyStrip M r.author_name))
      (canonState M l).nameMap = none :=
    alookup_nameMapOf_none _ (keysOf M l) 0 hmem
  rw [stepRow_of_valid M _ r hname hwid,
    resolveGroup_name_fresh M _ r ha hl]
  simp only [ha, ne_eq, not_true_eq_false, if_false, ite_false]
  unfold canonState
  rw [keysOf_append_some M l r _ hk]
  simp only [dedupInsert, if_neg hmem]
  simp only [AggState.mk.injEq]
  refine ⟨?_, ?_, ?_, ?_⟩
  · show idMapOf 0 (keysOf M l)
        = idMapOf 0 (keysOf M l ++ [RKey.byName (normalize_name M (pyStrip M r.author_name))])
    rw [idMapOf_append_name]
  · show aupsert (normalize_name M (pyStrip M r.author_name)) (keysOf M l).length
        (nameMapOf 0 (keysOf M l))
      = nameMapOf 0 (keysOf M l ++ [RKey.byName (normalize_name M (pyStrip M r.author_name))])
    have hl2 : alookup (normalize_name M (pyStrip M r.author_name))
        (nameMapOf 0 (keysOf M l)) = none := hl
    rw [aupsert_of_not_mem _ _ _ hl2, nameMapOf_append_name]
    simp
  · simp
  · show dupdate (keysOf M l).length (fun g => mergeRow M g r) emptyGroup
        (dataOf M 0 l (keysOf M l))
      = dataOf M 0 (l ++ [r]) (keysOf M l ++ [RKey.byName (normalize_name M (pyStrip M r.author_name))])
    rw [dupdate_of_absent _ _ _ _
        (fun p hp => by
          have := dataOf_key_bound M l (keysOf M l) 0 p hp
          omega),
      dataOf_append M (l ++ [r]) _ (keysOf M l) 0,
      dataOf_congr M l (l ++ [r]) (keysOf M l) 0
        (fun k2 hk2 => keyRows_append_ne M l r _ k2 hk
          (fun h => hmem (h ▸ hk2)))]
    have : keyRows M (l ++ [r])
        (RKey.byName (normalize_name M (pyStrip M r.author_name))) = [r] := by
      rw [keyRows_append, keyRows_eq_nil M l _ hmem]
      simp [hk]
    rw [this]
    simp [refAgg]

/-- Splitting a duplicate-free list at a member. -/
theorem exists_split_of_mem_nodup {α : Type} (l : List α) (a : α)
    (hm : a ∈ l) (hnd : l.Nodup) :
    ∃ l1 l2, l = l1 ++ a :: l2 ∧ a ∉ l1 ∧ a ∉ l2 := by
  obtain ⟨s, t, rfl⟩ := List.append_of_mem hm
  rw [List.nodup_append] at hnd
  obtain ⟨_, hat, hdisj⟩ := hnd
  refine ⟨s, t, rfl, ?_, (List.nodup_cons.mp hat).1⟩
  intro has
  exact hdisj has (List.mem_cons_self a t)

/-- One more row of a key folds into that key's reference aggregate. -/
theorem refAgg_append_one (M : CharModel) (rows : List Row) (r : Row) :
    refAgg M (rows ++ [r]) = mergeRow M (refAgg M rows) r := by
  unfold refAgg
  rw [List.foldl_append]
  rfl

/-- In-place merge of a valid row whose key is already tabled. -/
theorem dupdate_data_hit (M : CharModel) (l : List Row) (r : Row) (k : RKey)
    (ks1 ks2 : List RKey) (hk : rowKey M r = some k)
    (hsplit : keysOf M l = ks1 ++ k :: ks2) (h1 : k ∉ ks1) (h2 : k ∉ ks2) :
    dupdate ks1.length (fun g => mergeRow M g r) emptyGroup
        (dataOf M 0 l (keysOf M l))
      = dataOf M 0 (l ++ [r]) (keysOf M l) := by
  rw [hsplit]
  have hmid := dupdate_dataOf_mid M l k (fun g => mergeRow M g r) emptyGroup ks1 ks2 0
  simp only [Nat.zero_add] at hmid
  rw [hmid, dataOf_split M (l ++ [r]) ks1 (k :: ks2) 0]
  simp only [Nat.zero_add]
  have hks1 : dataOf M 0 (l ++ [r]) ks1 = dataOf M 0 l ks1 :=
    dataOf_congr M l (l ++ [r]) ks1 0
      (fun k2 hk2 => keyRows_append_ne M l r k k2 hk (fun h => h1 (h ▸ hk2)))
  have hmid2 : keyRows M (l ++ [r]) k = keyRows M l k ++ [r] := by
    rw [keyRows_append]
    simp [hk]
  have hks2 : dataOf M (ks1.length + 1) (l ++ [r]) ks2
      = dataOf M (ks1.length + 1) l ks2 :=
    dataOf_congr M l (l ++ [r]) ks2 (ks1.length + 1)
      (fun k2 hk2 => keyRows_append_ne M l r k k2 hk (fun h => h2 (h ▸ hk2)))
  simp only [dataOf, hks1, hmid2, refAgg_append_one, hks2]

/-- A valid row whose id key is already tabled merges in place. -/
theorem stepRow_canon_id_hit (M : CharModel) (l : List Row) (r : Row)
    (aid : String) (hk : rowKey M r = some (RKey.byId aid))
    (hmem : RKey.byId aid ∈ keysOf M l) :
    stepRow M (canonState M l) r = canonState M (l ++ [r]) := by
  obtain ⟨hname, hwid, hcase⟩ := rowKey_some_elim M r (RKey.byId aid) hk
  rcases hcase with ⟨ha, heq⟩ | ⟨ha, heq⟩
  swap
  · cases heq
  obtain rfl : aid = pyStrip M r.author_id := by cases heq; rfl
  obtain ⟨ks1, ks2, hsplit, h1, h2⟩ :=
    exists_split_of_mem_nodup _ _ hmem (keysOf_nodup M l)
  have hlook : alookup (pyStrip M r.author_id) (canonState M l).idMap
      = some ks1.length := by
    show alookup (pyStrip M r.author_id) (idMapOf 0 (keysOf M l)) = some ks1.length
    rw [hsplit]
    have := alookup_idMapOf_pos (pyStrip M r.author_id) ks1 ks2 0 h1
    simpa using this
  rw [stepRow_of_valid M _ r hname hwid,
    resolveGroup_id_hit M _ r ks1.length ha hlook]
  simp only [ha, ne_eq, not_false_eq_true, if_true, ite_true,
    aupsert_self _ _ _ hlook]
  unfold canonState
  rw [keysOf_append_some M l r _ hk]
  simp only [dedupInsert, if_pos hmem]
  simp only [AggState.mk.injEq, true_and, and_true]
  exact dupdate_data_hit M l r _ ks1 ks2 hk hsplit h1 h2

/-- A valid row whose name key is already tabled merges in place. -/
theorem stepRow_canon_name_hit (M : CharModel) (l : List Row) (r : Row)
    (nn : String) (hk : rowKey M r = some (RKey.byName nn))
    (hmem : RKey.byName nn ∈ keysOf M l) :
    stepRow M (canonState M l) r = canonState M (l ++ [r]) := by
  obtain ⟨hname, hwid, hcase⟩ := rowKey_some_elim M r (RKey.byName nn) hk
  rcases hcase with ⟨ha, heq⟩ | ⟨ha, heq⟩
  · cases heq
  obtain rfl : nn = normalize_name M (pyStrip M r.author_name) := by cases heq; rfl
  obtain ⟨ks1, ks2, hsplit, h1, h2⟩ :=
    exists_split_of_mem_nodup _ _ hmem (keysOf_nodup M l)
  have hlook : alookup (normalize_name M (pyStrip M r.author_name))
      (canonState M l).nameMap = some ks1.length := by
    show alookup (normalize_name M (pyStrip M r.author_name))
      (nameMapOf 0 (keysOf M l)) = some ks1.length
    rw [hsplit]
    have := alookup_nameMapOf_pos (normalize_name M (pyStrip M r.author_name))
      ks1 ks2 0 h1
    simpa using this
  rw [stepRow_of_valid M _ r hname hwid,
    resolveGroup_name_hit M _ r ks1.length ha hlook]
  simp only [ha, ne_eq, not_true_eq_false, if_false, ite_false]
  unfold canonState
  rw [keysOf_append_some M l r _ hk]
  simp only [dedupInsert, if_pos hmem]
  simp only [AggState.mk.injEq, true_and, and_true]
  exact dupdate_data_hit M l r _ ks1 ks2 hk hsplit h1 h2

/-- One loop iteration preserves the canonical description. -/
theorem stepRow_canonState (M : CharModel) (l : List Row) (r : Row) :
    stepRow M (canonState M l) r = canonState M (l ++ [r]) := by
  cases hk : rowKey M r with
  | none =>
    rw [canonState_append_none M l r hk]
    apply stepRow_of_invalid
    unfold rowKey at hk
    by_cases hname : pyStrip M r.author_name = ""
    · exact Or.inl hname
    by_cases hwid : pyStrip M r.id = ""
    · exact Or.inr hwid
    by_cases ha : pyStrip M r.author_id ≠ "" <;> simp [hname, hwid, ha] at hk
  | some k =>
    cases k with
    | byId aid =>
      by_cases hmem : RKey.byId aid ∈ keysOf M l
      · exact stepRow_canon_id_hit M l r aid hk hmem
      · exact stepRow_canon_id_fresh M l r aid hk hmem
    | byName nn =>
      by_cases hmem : RKey.byName nn ∈ keysOf M l
      · exact stepRow_canon_name_hit M l r nn hk hmem
      · exact stepRow_canon_name_fresh M l r nn hk hmem

/-- **The characterization theorem**: the loop state after any stream is
exactly the canonical description — the stream's keys in first-occurrence
order, each key's group holding the fold of `mergeRow` over its own rows. -/
theorem runAgg_eq_canonState (M : CharModel) (l : List Row) :
    runAgg M l = canonState M l := by
  induction l using List.reverseRecOn with
  | nil => rfl
  | append_singleton l r ih =>
    have : runAgg M (l ++ [r]) = stepRow M (runAgg M l) r := by
      unfold runAgg
      rw [List.foldl_append]
      rfl
    rw [this, ih, stepRow_canonState]

/-- The `dataOf` table finds a tabled key's group at its index. -/
theorem alookup_dataOf_pos (M : CharModel) (l : List Row) (k : RKey) :
    ∀ (ks1 ks2 : List RKey) (n : Nat),
      alookup (n + ks1.length) (dataOf M n l (ks1 ++ k :: ks2))
        = some (refAgg M (keyRows M l k)) := by
  intro ks1
  induction ks1 with
  | nil => intro ks2 n; simp [dataOf, alookup]
  | cons h t ih =>
    intro ks2 n
    have harith : n + (t.length + 1) = n + 1 + t.length := by omega
    have hne : ¬ n = n + (t.length + 1) := by omega
    simp only [List.cons_append, dataOf, List.length_cons, alookup, if_neg hne,
      List.append_eq]
    rw [harith]
    exact ih ks2 (n + 1)

/-- Any entry of the `dataOf` table is found by looking up its own id. -/
theorem alookup_dataOf_of_mem (M : CharModel) (l : List Row) :
    ∀ (ks : List RKey) (n : Nat) (p : Nat × GroupData),
      p ∈ dataOf M n l ks → alookup p.1 (dataOf M n l ks) = some p.2 := by
  intro ks
  induction ks with
  | nil => intro n p hp; cases hp
  | cons h t ih =>
    intro n p hp
    rcases List.mem_cons.mp hp with rfl | hp
    · simp [dataOf, alookup]
    · have hbound := dataOf_key_bound M l t (n + 1) p hp
      have hne : ¬ n = p.1 := by omega
      have : alookup p.1 (dataOf M n l (h :: t))
          = alookup p.1 (dataOf M (n + 1) l t) := by
        simp [dataOf, alookup, hne]
      rw [this]
      exact ih (n + 1) p hp

/-- Generic projection of the row fold to one set-valued field. -/
theorem foldl_mergeRow_field {α : Type} [DecidableEq α] (M : CharModel)
    (F : GroupData → List α) (upd : Row → List α)
    (hstep : ∀ g r, F (mergeRow M g r) = insertAll (F g) (upd r)) :
    ∀ (rows : List Row) (g : GroupData),
      F (rows.foldl (mergeRow M) g)
        = rows.foldl (fun ns r => insertAll ns (upd r)) (F g) := by
  intro rows
  induction rows with
  | nil => intro g; rfl
  | cons r t ih =>
    intro g
    have h1 : (r :: t).foldl (mergeRow M) g = t.foldl (mergeRow M) (mergeRow M g r) := rfl
    rw [h1, ih (mergeRow M g r), hstep]
    rfl

/-- Membership under the generic set-field fold. -/
theorem mem_foldl_insertAll {α : Type} [DecidableEq α] (upd : Row → List α) :
    ∀ (rows : List Row) (acc : List α) (a : α),
      a ∈ rows.foldl (fun ns r => insertAll ns (upd r)) acc ↔
        a ∈ acc ∨ ∃ r ∈ rows, a ∈ upd r := by
  intro rows
  induction rows with
  | nil => intro acc a; simp
  | cons r t ih =>
    intro acc a
    have h1 : (r :: t).foldl (fun ns r => insertAll ns (upd r)) acc
        = t.foldl (fun ns r => insertAll ns (upd r)) (insertAll acc (upd r)) := rfl
    rw [h1, ih]
    have hmem : a ∈ insertAll acc (upd r) ↔ a ∈ acc ∨ a ∈ upd r := by
      unfold insertAll
      rw [mem_foldl_dedupInsert]
    rw [hmem]
    constructor
    · rintro ((ha | ha) | ⟨r2, hr2, ha⟩)
      · exact Or.inl ha
      · exact Or.inr ⟨r, List.mem_cons_self _ _, ha⟩
      · exact Or.inr ⟨r2, List.mem_cons_of_mem _ hr2, ha⟩
    · rintro (ha | ⟨r2, hr2, ha⟩)
      · exact Or.inl (Or.inl ha)
      · rcases List.mem_cons.mp hr2 with rfl | hr2
        · exact Or.inl (Or.inr ha)
        · exact Or.inr ⟨r2, hr2, ha⟩

/-- The generic set-field fold keeps lists duplicate-free. -/
theorem nodup_foldl_insertAll {α : Type} [DecidableEq α] (upd : Row → List α) :
    ∀ (rows : List Row) (acc : List α), acc.Nodup →
      (rows.foldl (fun ns r => insertAll ns (upd r)) acc).Nodup := by
  intro rows
  induction rows with
  | nil => intro acc h; exact h
  | cons r t ih =>
    intro acc h
    apply ih
    unfold insertAll
    suffices hgen : ∀ (xs : List α) (s : List α), s.Nodup →
        (xs.foldl dedupInsert s).Nodup from hgen (upd r) acc h
    intro xs
    induction xs with
    | nil => intro s hs; exact hs
    | cons x txs ihx => intro s hs; exact ihx _ (nodup_dedupInsert s x hs)

/-- The generic set-field fold is invariant, up to order, under permuting
the rows. -/
theorem perm_foldl_insertAll {α : Type} [DecidableEq α] (upd : Row → List α)
    (rows rows' : List Row) (hp : List.Perm rows rows') :
    List.Perm (rows.foldl (fun ns r => insertAll ns (upd r)) [])
      (rows'.foldl (fun ns r => insertAll ns (upd r)) []) := by
  apply (List.perm_ext_iff_of_nodup
    (nodup_foldl_insertAll upd rows [] List.nodup_nil)
    (nodup_foldl_insertAll upd rows' [] List.nodup_nil)).mpr
  intro a
  rw [mem_foldl_insertAll, mem_foldl_insertAll]
  constructor
  · rintro (ha | ⟨r, hr, ha⟩)
    · cases ha
    · exact Or.inr ⟨r, hp.mem_iff.mp hr, ha⟩
  · rintro (ha | ⟨r, hr, ha⟩)
    · cases ha
    · exact Or.inr ⟨r, hp.mem_iff.mpr hr, ha⟩

/-- The raw-name set of a reference aggregate, as a fold. -/
theorem author_names_refAgg (M : CharModel) (rows : List Row) :
    (refAgg M rows).author_names
      = rows.foldl (fun ns r => insertAll ns [pyStrip M r.author_name]) [] :=
  foldl_mergeRow_field M GroupData.author_names
    (fun r => [pyStrip M r.author_name]) (fun _ _ => rfl) rows emptyGroup

/-- The work-id set of a reference aggregate, as a fold. -/
theorem work_ids_refAgg (M : CharModel) (rows : List Row) :
    (refAgg M rows).work_ids
      = rows.foldl (fun ns r => insertAll ns [pyStrip M r.id]) [] :=
  foldl_mergeRow_field M GroupData.work_ids
    (fun r => [pyStrip M r.id]) (fun _ _ => rfl) rows emptyGroup

/-- Membership in a reference aggregate's raw-name set. -/
theorem mem_author_names_refAgg (M : CharModel) (rows : List Row) (a : String) :
    a ∈ (refAgg M rows).author_names ↔
      ∃ r ∈ rows, a = pyStrip M r.author_name := by
  rw [author_names_refAgg, mem_foldl_insertAll]
  simp

/-- Membership in a reference aggregate's work-id set. -/
theorem mem_work_ids_refAgg (M : CharModel) (rows : List Row) (a : String) :
    a ∈ (refAgg M rows).work_ids ↔ ∃ r ∈ rows, a = pyStrip M r.id := by
  rw [work_ids_refAgg, mem_foldl_insertAll]
  simp

/-- A set all of whose inserted elements equal `c` stays `[c]`. -/
theorem foldl_dedupInsert_const {α : Type} [DecidableEq α] (c : α) :
    ∀ xs : List α, (∀ x ∈ xs, x = c) → xs.foldl dedupInsert [c] = [c] := by
  intro xs
  induction xs with
  | nil => intro _; rfl
  | cons x t ih =>
    intro h
    obtain rfl : x = c := h x (List.mem_cons_self _ _)
    have : dedupInsert [x] x = [x] := by simp [dedupInsert]
    have h2 : (x :: t).foldl dedupInsert [x] = t.foldl dedupInsert (dedupInsert [x] x) := rfl
    rw [h2, this]
    exact ih (fun y hy => h y (List.mem_cons_of_mem _ hy))

/-- A group whose raw names all normalize to the empty string is rendered
with an empty canonical name. -/
theorem chooseName_empty_of_all (M : CharModel) (names : List String)
    (h : ∀ a ∈ names, normalize_name M a = "") : chooseName M names = "" := by
  cases names with
  | nil => rfl
  | cons n t =>
    have hall : ∀ x ∈ (n :: t).map (normalize_name M), x = "" := by
      intro x hx
      obtain ⟨a, ha, rfl⟩ := List.mem_map.mp hx
      exact h a ha
    have hn : normalize_name M n = "" := h n (List.mem_cons_self _ _)
    show titleCase M (pyMax _ (firstDedup ((n :: t).map (normalize_name M)))) = ""
    have hfd : firstDedup ((n :: t).map (normalize_name M)) = [""] := by
      unfold firstDedup
      have h1 : (n :: t).map (normalize_name M)
          = "" :: t.map (normalize_name M) := by
        simp [hn]
      rw [h1]
      have h2 : ("" :: t.map (normalize_name M)).foldl dedupInsert []
          = (t.map (normalize_name M)).foldl dedupInsert [""] := rfl
      rw [h2]
      exact foldl_dedupInsert_const "" _
        (fun x hx => hall x (by rw [List.map_cons, hn]; exact List.mem_cons_of_mem _ hx))
    rw [hfd]
    rfl

/-- **C9**: id-less rows whose (non-empty) names normalize to the empty
string all resolve to the single group keyed by the empty normalized name
— their works land in one shared group — and if that group is emitted, its
`author_name` output field is the empty string. -/
theorem claim_C9_empty_normalized_name (M : CharModel) (l : List Row)
    (r1 r2 : Row) (h1 : r1 ∈ l) (h2 : r2 ∈ l)
    (hv1 : pyStrip M r1.author_name ≠ "") (hw1 : pyStrip M r1.id ≠ "")
    (ha1 : pyStrip M r1.author_id = "")
    (hn1 : normalize_name M (pyStrip M r1.author_name) = "")
    (hv2 : pyStrip M r2.author_name ≠ "") (hw2 : pyStrip M r2.id ≠ "")
    (ha2 : pyStrip M r2.author_id = "")
    (hn2 : normalize_name M (pyStrip M r2.author_name) = "") :
    ∃ gid g, alookup "" (runAgg M l).nameMap = some gid ∧
      alookup gid (runAgg M l).data = some g ∧
      pyStrip M r1.id ∈ g.work_ids ∧ pyStrip M r2.id ∈ g.work_ids ∧
      (emitGroup M g).author_name = "" := by
  have hk1 : rowKey M r1 = some (RKey.byName "") := by
    unfold rowKey
    simp [hv1, hw1, ha1, hn1]
  have hk2 : rowKey M r2 = some (RKey.byName "") := by
    unfold rowKey
    simp [hv2, hw2, ha2, hn2]
  have hmem : RKey.byName "" ∈ keysOf M l :=
    (mem_keysOf M l _).mpr ⟨r1, h1, hk1⟩
  obtain ⟨ks1, ks2, hsplit, hfst, _⟩ :=
    exists_split_of_mem_nodup _ _ hmem (keysOf_nodup M l)
  rw [runAgg_eq_canonState]
  refine ⟨ks1.length, refAgg M (keyRows M l (RKey.byName "")), ?_, ?_, ?_, ?_, ?_⟩
  · show alookup "" (nameMapOf 0 (keysOf M l)) = some ks1.length
    rw [hsplit]
    have := alookup_nameMapOf_pos "" ks1 ks2 0 hfst
    simpa using this
  · show alookup ks1.length (dataOf M 0 l (keysOf M l))
      = some (refAgg M (keyRows M l (RKey.byName "")))
    rw [hsplit]
    have := alookup_dataOf_pos M l (RKey.byName "") ks1 ks2 0
    simpa using this
  · exact (mem_work_ids_refAgg M _ _).mpr
      ⟨r1, List.mem_filter.mpr ⟨h1, by simp [hk1]⟩, rfl⟩
  · exact (mem_work_ids_refAgg M _ _).mpr
      ⟨r2, List.mem_filter.mpr ⟨h2, by simp [hk2]⟩, rfl⟩
  · show chooseName M (refAgg M (keyRows M l (RKey.byName ""))).author_names = ""
    apply chooseName_empty_of_all
    intro a ha
    obtain ⟨r, hr, rfl⟩ := (mem_author_names_refAgg M _ _).mp ha
    have hrk : rowKey M r = some (RKey.byName "") := by
      have := (List.mem_filter.mp hr).2
      simpa using this
    unfold rowKey at hrk
    by_cases hname : pyStrip M r.author_name = ""
    · simp [hname] at hrk
    by_cases hwid3 : pyStrip M r.id = ""
    · simp [hname, hwid3] at hrk
    by_cases ha3 : pyStrip M r.author_id = ""
    · simp only [hname, hwid3, ha3, ne_eq, not_true_eq_false, if_false,
        ite_false, Option.some.injEq, RKey.byName.injEq] at hrk
      exact hrk
    · simp [hname, hwid3, ha3] at hrk

/-- Witness for C9: two id-less rows whose names are pure punctuation. -/
theorem claim_C9_witness :
    ((mkRow "..." "" "W1" "yes" "" "") ∈
        [mkRow "..." "" "W1" "yes" "" "", mkRow "--" "" "W2" "" "" ""] ∧
      normalize_name asciiChars "..." = "" ∧
      normalize_name asciiChars "--" = "") ∧
    ∃ gid g, alookup ""
        (runAgg asciiChars
          [mkRow "..." "" "W1" "yes" "" "", mkRow "--" "" "W2" "" "" ""]).nameMap
        = some gid ∧
      alookup gid (runAgg asciiChars
          [mkRow "..." "" "W1" "yes" "" "", mkRow "--" "" "W2" "" "" ""]).data
        = some g ∧
      pyStrip asciiChars (mkRow "..." "" "W1" "yes" "" "").id ∈ g.work_ids ∧
      pyStrip asciiChars (mkRow "--" "" "W2" "" "" "").id ∈ g.work_ids ∧
      (emitGroup asciiChars g).author_name = "" :=
  ⟨⟨by decide, by decide, by decide⟩,
    claim_C9_empty_normalized_name asciiChars
      [mkRow "..." "" "W1" "yes" "" "", mkRow "--" "" "W2" "" "" ""]
      (mkRow "..." "" "W1" "yes" "" "") (mkRow "--" "" "W2" "" "" "")
      (by decide) (by decide) (by decide) (by decide) (by decide) (by decide)
      (by decide) (by decide) (by decide) (by decide)⟩

/-- Folding more insertions only ever appends to the set. -/
theorem foldl_dedupInsert_extends {α : Type} [DecidableEq α] :
    ∀ (xs acc : List α), ∃ ext, xs.foldl dedupInsert acc = acc ++ ext := by
  intro xs
  induction xs with
  | nil => intro acc; exact ⟨[], by simp⟩
  | cons x t ih =>
    intro acc
    by_cases hx : x ∈ acc
    · have h1 : (x :: t).foldl dedupInsert acc = t.foldl dedupInsert acc := by
        show t.foldl dedupInsert (dedupInsert acc x) = t.foldl dedupInsert acc
        rw [dedupInsert, if_pos hx]
      rw [h1]
      exact ih acc
    · have h1 : (x :: t).foldl dedupInsert acc
          = t.foldl dedupInsert (acc ++ [x]) := by
        show t.foldl dedupInsert (dedupInsert acc x) = _
        rw [dedupInsert, if_neg hx]
      obtain ⟨ext, hext⟩ := ih (acc ++ [x])
      exact ⟨[x] ++ ext, by rw [h1, hext, List.append_assoc]⟩

/-- The key list of a longer stream extends the key list of a prefix. -/
theorem keysOf_extends (M : CharModel) (l1 l2 : List Row) :
    ∃ ext, keysOf M (l1 ++ l2) = keysOf M l1 ++ ext := by
  unfold keysOf firstDedup
  rw [List.filterMap_append, List.foldl_append]
  exact foldl_dedupInsert_extends _ _

/-- `idMapOf` distributes over key-list concatenation. -/
theorem idMapOf_split :
    ∀ (ks1 ks2 : List RKey) (n : Nat),
      idMapOf n (ks1 ++ ks2) = idMapOf n ks1 ++ idMapOf (n + ks1.length) ks2 := by
  intro ks1
  induction ks1 with
  | nil => intro ks2 n; simp [idMapOf]
  | cons h t ih =>
    intro ks2 n
    have harith : n + 1 + t.length = n + (t.length + 1) := by omega
    cases h with
    | byId y => simp [idMapOf, ih ks2 (n + 1), harith]
    | byName y => simp [idMapOf, ih ks2 (n + 1), harith]

/-- `nameMapOf` distributes over key-list concatenation. -/
theorem nameMapOf_split :
    ∀ (ks1 ks2 : List RKey) (n : Nat),
      nameMapOf n (ks1 ++ ks2) = nameMapOf n ks1 ++ nameMapOf (n + ks1.length) ks2 := by
  intro ks1
  induction ks1 with
  | nil => intro ks2 n; simp [nameMapOf]
  | cons h t ih =>
    intro ks2 n
    have harith : n + 1 + t.length = n + (t.length + 1) := by omega
    cases h with
    | byId y => simp [nameMapOf, ih ks2 (n + 1), harith]
    | byName y => simp [nameMapOf, ih ks2 (n + 1), harith]

/-- Group ids stored in the id map are at least the base id. -/
theorem alookup_idMapOf_bound (x : String) :
    ∀ (ks : List RKey) (n g : Nat),
      alookup x (idMapOf n ks) = some g → n ≤ g := by
  intro ks
  induction ks with
  | nil => intro n g h; cases h
  | cons h t ih =>
    intro n g hl
    cases h with
    | byId y =>
      by_cases hxy : y = x
      · subst hxy
        simp [idMapOf, alookup] at hl
        omega
      · simp only [idMapOf, alookup, if_neg hxy] at hl
        have := ih (n + 1) g hl
        omega
    | byName y =>
      simp only [idMapOf] at hl
      have := ih (n + 1) g hl
      omega

/-- Group ids stored in the name map are at least the base id. -/
theorem alookup_nameMapOf_bound (x : String) :
    ∀ (ks : List RKey) (n g : Nat),
      alookup x (nameMapOf n ks) = some g → n ≤ g := by
  intro ks
  induction ks with
  | nil => intro n g h; cases h
  | cons h t ih =>
    intro n g hl
    cases h with
    | byName y =>
      by_cases hxy : y = x
      · subst hxy
        simp [nameMapOf, alookup] at hl
        omega
      · simp only [nameMapOf, alookup, if_neg hxy] at hl
        have := ih (n + 1) g hl
        omega
    | byId y =>
      simp only [nameMapOf] at hl
      have := ih (n + 1) g hl
      omega

/-- Two ids bound to the same group id are the same id. -/
theorem idMapOf_inj (x y : String) :
    ∀ (ks : List RKey) (n g : Nat),
      alookup x (idMapOf n ks) = some g →
      alookup y (idMapOf n ks) = some g → x = y := by
  intro ks
  induction ks with
  | nil => intro n g hx _; cases hx
  | cons h t ih =>
    intro n g hx hy
    cases h with
    | byId z =>
      by_cases hzx : z = x <;> by_cases hzy : z = y
      · rw [← hzx, hzy]
      · subst hzx
        simp [idMapOf, alookup] at hx
        simp only [idMapOf, alookup, if_neg hzy] at hy
        have := alookup_idMapOf_bound y t (n + 1) g hy
        exact absurd this (by omega)
      · subst hzy
        simp [idMapOf, alookup] at hy
        simp only [idMapOf, alookup, if_neg hzx] at hx
        have := alookup_idMapOf_bound x t (n + 1) g hx
        exact absurd this (by omega)
      · simp only [idMapOf, alookup, if_neg hzx] at hx
        simp only [idMapOf, alookup, if_neg hzy] at hy
        exact ih (n + 1) g hx hy
    | byName z =>
      simp only [idMapOf] at hx hy
      exact ih (n + 1) g hx hy

/-- Two names bound to the same group id are the same name. -/
theorem nameMapOf_inj (x y : String) :
    ∀ (ks : List RKey) (n g : Nat),
      alookup x (nameMapOf n ks) = some g →
      alookup y (nameMapOf n ks) = some g → x = y := by
  intro ks
  induction ks with
  | nil => intro n g hx _; cases hx
  | cons h t ih =>
    intro n g hx hy
    cases h with
    | byName z =>
      by_cases hzx : z = x <;> by_cases hzy : z = y
      · rw [← hzx, hzy]
      · subst hzx
        simp [nameMapOf, alookup] at hx
        simp only [nameMapOf, alookup, if_neg hzy] at hy
        have := alookup_nameMapOf_bound y t (n + 1) g hy
        exact absurd this (by omega)
      · subst hzy
        simp [nameMapOf, alookup] at hy
        simp only [nameMapOf, alookup, if_neg hzx] at hx
        have := alookup_nameMapOf_bound x t (n + 1) g hx
        exact absurd this (by omega)
      · simp only [nameMapOf, alookup, if_neg hzx] at hx
        simp only [nameMapOf, alookup, if_neg hzy] at hy
        exact ih (n + 1) g hx hy
    | byId z =>
      simp only [nameMapOf] at hx hy
      exact ih (n + 1) g hx hy

/-- An id binding and a name binding never share a group id. -/
theorem idMapOf_nameMapOf_disjoint (x y : String) :
    ∀ (ks : List RKey) (n g : Nat),
      alookup x (idMapOf n ks) = some g →
      alookup y (nameMapOf n ks) = some g → False := by
  intro ks
  induction ks with
  | nil => intro n g hx _; cases hx
  | cons h t ih =>
    intro n g hx hy
    cases h with
    | byId z =>
      simp only [nameMapOf] at hy
      by_cases hzx : z = x
      · subst hzx
        simp [idMapOf, alookup] at hx
        have := alookup_nameMapOf_bound y t (n + 1) g hy
        exact absurd this (by omega)
      · simp only [idMapOf, alookup, if_neg hzx] at hx
        exact ih (n + 1) g hx hy
    | byName z =>
      simp only [idMapOf] at hx
      by_cases hzy : z = y
      · subst hzy
        simp [nameMapOf, alookup] at hy
        have := alookup_idMapOf_bound x t (n + 1) g hx
        exact absurd this (by omega)
      · simp only [nameMapOf, alookup, if_neg hzy] at hy
        exact ih (n + 1) g hx hy

/-- A group id has an entry in the table exactly when it is below the
number of groups. -/
theorem alookup_dataOf_some_iff (M : CharModel) (l : List Row) :
    ∀ (ks : List RKey) (n g : Nat),
      (∃ gd, alookup g (dataOf M n l ks) = some gd) ↔
        (n ≤ g ∧ g < n + ks.length) := by
  intro ks
  induction ks with
  | nil =>
    intro n g
    constructor
    · rintro ⟨gd, h⟩; cases h
    · intro h; simp at h; omega
  | cons h t ih =>
    intro n g
    by_cases hng : n = g
    · subst hng
      constructor
      · intro _; simp
      · intro _
        exact ⟨refAgg M (keyRows M l h), by simp [dataOf, alookup]⟩
    · have hstep : alookup g (dataOf M n l (h :: t))
          = alookup g (dataOf M (n + 1) l t) := by
        simp [dataOf, alookup, hng]
      rw [hstep, ih (n + 1) g]
      simp only [List.length_cons]
      omega

/-- **C4**: identity bindings are stable for the lifetime of a run — a
binding present after `n` rows is still present, unchanged, after `m ≥ n`
rows (so all rows sharing an `author_id`, or id-less rows sharing a
normalized name, resolve to the same group); at any point distinct ids,
distinct normalized names, and id- versus name-keys never share a group
id (no reassignment, no merging); and an existing group is never
deleted. -/
theorem claim_C4_stable_identity (M : CharModel) (l : List Row) (n m : Nat)
    (hnm : n ≤ m) (x y : String) (g : Nat) :
    (alookup x (runAgg M (l.take n)).idMap = some g →
      alookup x (runAgg M (l.take m)).idMap = some g) ∧
    (alookup x (runAgg M (l.take n)).nameMap = some g →
      alookup x (runAgg M (l.take m)).nameMap = some g) ∧
    (alookup x (runAgg M (l.take m)).idMap = some g →
      alookup y (runAgg M (l.take m)).idMap = some g → x = y) ∧
    (alookup x (runAgg M (l.take m)).nameMap = some g →
      alookup y (runAgg M (l.take m)).nameMap = some g → x = y) ∧
    (alookup x (runAgg M (l.take m)).idMap = some g →
      alookup y (runAgg M (l.take m)).nameMap = some g → False) ∧
    ((∃ gd, alookup g (runAgg M (l.take n)).data = some gd) →
      ∃ gd, alookup g (runAgg M (l.take m)).data = some gd) := by
  have htake : l.take m = l.take n ++ (l.drop n).take (m - n) := by
    rw [← List.take_add]
    congr 1
    omega
  obtain ⟨ext, hext⟩ := keysOf_extends M (l.take n) ((l.drop n).take (m - n))
  rw [runAgg_eq_canonState, runAgg_eq_canonState]
  refine ⟨?_, ?_, ?_, ?_, ?_, ?_⟩
  · intro hx
    show alookup x (idMapOf 0 (keysOf M (l.take m))) = some g
    rw [htake, hext, idMapOf_split]
    exact alookup_append_of_some x g _ _ hx
  · intro hx
    show alookup x (nameMapOf 0 (keysOf M (l.take m))) = some g
    rw [htake, hext, nameMapOf_split]
    exact alookup_append_of_some x g _ _ hx
  · exact idMapOf_inj x y (keysOf M (l.take m)) 0 g
  · exact nameMapOf_inj x y (keysOf M (l.take m)) 0 g
  · exact idMapOf_nameMapOf_disjoint x y (keysOf M (l.take m)) 0 g
  · intro hx
    have hb := (alookup_dataOf_some_iff M (l.take n) (keysOf M (l.take n)) 0 g).mp hx
    apply (alookup_dataOf_some_iff M (l.take m) (keysOf M (l.take m)) 0 g).mpr
    rw [htake, hext]
    simp only [List.length_append]
    omega

/-- Witness for C4 on a two-row stream, between the one-row and two-row
points. -/
theorem claim_C4_witness :
    (1 ≤ 2) ∧
    ((alookup "X" (runAgg asciiChars
          ([mkRow "A" "X" "W1" "yes" "" "", mkRow "A2" "X" "W2" "" "" ""].take 1)).idMap
        = some 0 →
      alookup "X" (runAgg asciiChars
          ([mkRow "A" "X" "W1" "yes" "" "", mkRow "A2" "X" "W2" "" "" ""].take 2)).idMap
        = some 0) ∧
    (alookup "X" (runAgg asciiChars
          ([mkRow "A" "X" "W1" "yes" "" "", mkRow "A2" "X" "W2" "" "" ""].take 1)).nameMap
        = some 0 →
      alookup "X" (runAgg asciiChars
          ([mkRow "A" "X" "W1" "yes" "" "", mkRow "A2" "X" "W2" "" "" ""].take 2)).nameMap
        = some 0) ∧
    (alookup "X" (runAgg asciiChars
          ([mkRow "A" "X" "W1" "yes" "" "", mkRow "A2" "X" "W2" "" "" ""].take 2)).idMap
        = some 0 →
      alookup "X" (runAgg asciiChars
          ([mkRow "A" "X" "W1" "yes" "" "", mkRow "A2" "X" "W2" "" "" ""].take 2)).idMap
        = some 0 → "X" = "X") ∧
    (alookup "X" (runAgg asciiChars
          ([mkRow "A" "X" "W1" "yes" "" "", mkRow "A2" "X" "W2" "" "" ""].take 2)).nameMap
        = some 0 →
      alookup "X" (runAgg asciiChars
          ([mkRow "A" "X" "W1" "yes" "" "", mkRow "A2" "X" "W2" "" "" ""].take 2)).nameMap
        = some 0 → "X" = "X") ∧
    (alookup "X" (runAgg asciiChars
          ([mkRow "A" "X" "W1" "yes" "" "", mkRow "A2" "X" "W2" "" "" ""].take 2)).idMap
        = some 0 →
      alookup "X" (runAgg asciiChars
          ([mkRow "A" "X" "W1" "yes" "" "", mkRow "A2" "X" "W2" "" "" ""].take 2)).nameMap
        = some 0 → False) ∧
    ((∃ gd, alookup 0 (runAgg asciiChars
          ([mkRow "A" "X" "W1" "yes" "" "", mkRow "A2" "X" "W2" "" "" ""].take 1)).data
        = some gd) →
      ∃ gd, alookup 0 (runAgg asciiChars
          ([mkRow "A" "X" "W1" "yes" "" "", mkRow "A2" "X" "W2" "" "" ""].take 2)).data
        = some gd)) :=
  ⟨by decide,
    claim_C4_stable_identity asciiChars
      [mkRow "A" "X" "W1" "yes" "" "", mkRow "A2" "X" "W2" "" "" ""]
      1 2 (by decide) "X" "X" 0⟩

/-- A running maximum never beaten stays put. -/
theorem foldl_pyMax_keep (key : String → Nat) (m : String) :
    ∀ xs : List String, (∀ c ∈ xs, ¬ key m < key c) →
      xs.foldl (fun best c => if key best < key c then c else best) m = m := by
  intro xs
  induction xs with
  | nil => intro _; rfl
  | cons c t ih =>
    intro h
    have hc : ¬ key m < key c := h c (List.mem_cons_self _ _)
    have h1 : (c :: t).foldl (fun best c => if key best < key c then c else best) m
        = t.foldl (fun best c => if key best < key c then c else best)
            (if key m < key c then c else m) := rfl
    rw [h1, if_neg hc]
    exact ih (fun d hd => h d (List.mem_cons_of_mem _ hd))

/-- The running-maximum fold lands on a strict maximizer. -/
theorem foldl_pyMax_inv (key : String → Nat) (m : String) :
    ∀ (xs : List String) (b : String),
      (b = m ∨ key b < key m) → (m ∈ xs ∨ b = m) →
      (∀ c ∈ xs, c ≠ m → key c < key m) →
      xs.foldl (fun best c => if key best < key c then c else best) b = m := by
  intro xs
  induction xs with
  | nil =>
    intro b _ hin _
    rcases hin with hin | hbm
    · cases hin
    · exact hbm
  | cons c t ih =>
    intro b hb hin hmax
    have h1 : (c :: t).foldl (fun best c => if key best < key c then c else best) b
        = t.foldl (fun best c => if key best < key c then c else best)
            (if key b < key c then c else b) := rfl
    rw [h1]
    by_cases hcm : c = m
    · subst hcm
      by_cases hbc : key b < key c
      · rw [if_pos hbc]
        exact foldl_pyMax_keep key c t
          (fun d hd => by
            by_cases hdm : d = c
            · subst hdm; omega
            · have := hmax d (List.mem_cons_of_mem _ hd) hdm
              omega)
      · rw [if_neg hbc]
        rcases hb with rfl | hb
        · exact foldl_pyMax_keep key b t
            (fun d hd => by
              by_cases hdm : d = b
              · subst hdm; omega
              · have := hmax d (List.mem_cons_of_mem _ hd) hdm
                omega)
        · exact absurd hb hbc
    · have hckey : key c < key m := hmax c (List.mem_cons_self _ _) hcm
      apply ih
      · by_cases hbc : key b < key c
        · rw [if_pos hbc]; right; exact hckey
        · rw [if_neg hbc]; exact hb
      · rcases hin with hin | rfl
        · rcases List.mem_cons.mp hin with rfl | hin
          · exact absurd rfl hcm
          · exact Or.inl hin
        · have hbc : ¬ key b < key c := by omega
          rw [if_neg hbc]
          exact Or.inr rfl
      · exact fun d hd hdm => hmax d (List.mem_cons_of_mem _ hd) hdm

/-- Python's `max(..., key=...)` returns the strict maximizer whenever one
exists, independent of iteration order. -/
theorem pyMax_unique (key : String → Nat) (cands : List String) (m : String)
    (hm : m ∈ cands) (hmax : ∀ c ∈ cands, c ≠ m → key c < key m) :
    pyMax key cands = m := by
  cases cands with
  | nil => cases hm
  | cons x xs =>
    show xs.foldl (fun best c => if key best < key c then c else best) x = m
    apply foldl_pyMax_inv key m xs x
    · by_cases hxm : x = m
      · exact Or.inl hxm
      · exact Or.inr (hmax x (List.mem_cons_self _ _) hxm)
    · rcases List.mem_cons.mp hm with rfl | hm
      · exact Or.inr rfl
      · exact Or.inl hm
    · exact fun c hc => hmax c (List.mem_cons_of_mem _ hc)

/-- The canonical name of a group with a strictly most frequent normalized
form is that form's title case. -/
theorem chooseName_of_uniqueMax (M : CharModel) (names : List String)
    (m : String) (hm : isUniqueMax (names.map (normalize_name M)) m) :
    chooseName M names = titleCase M m := by
  obtain ⟨hmem, hmax⟩ := hm
  cases names with
  | nil => simp [firstDedup] at hmem
  | cons n t =>
    show titleCase M (pyMax _ (firstDedup ((n :: t).map (normalize_name M)))) = _
    rw [pyMax_unique _ _ m hmem hmax]

/-- **C3 (amended)**: every emitted output row is the emission of one
stored group, and whenever that group's normalized raw names have a
strictly most frequent form `m`, the emitted `author_name` is exactly `m`
in title case.  (When several forms tie for the highest count, the source
picks the first in the raw-name set's iteration order — modelled as first
insertion order — not the lexicographically smallest; see the
counterexample.) -/
theorem claim_C3_modal_name (M : CharModel) (rows : List Row) (r : OutputRow)
    (hr : r ∈ aggregate_authors M rows) :
    ∃ gid g, alookup gid (runAgg M rows).data = some g ∧ r = emitGroup M g ∧
      ∀ m, isUniqueMax (g.author_names.map (normalize_name M)) m →
        r.author_name = titleCase M m := by
  have hr2 := (pySorted_perm _ _).mem_iff.mp hr
  obtain ⟨p, hp, hfp⟩ := List.mem_filterMap.mp hr2
  by_cases h0 : p.2.specific_work_ids.length = 0
  · simp [h0] at hfp
  simp only [h0, if_false, ite_false, Option.some.injEq] at hfp
  refine ⟨p.1, p.2, ?_, hfp.symm, ?_⟩
  · have hdata : (runAgg M rows).data = dataOf M 0 rows (keysOf M rows) := by
      rw [runAgg_eq_canonState]
      rfl
    rw [hdata]
    apply alookup_dataOf_of_mem
    rw [← hdata]
    exact hp
  · intro m hm
    rw [← hfp]
    exact chooseName_of_uniqueMax M p.2.author_names m hm

/-- Witness for C3 on a single-author stream with a unique name form. -/
theorem claim_C3_witness :
    (emitGroup asciiChars (mergeRow asciiChars emptyGroup
        (mkRow "Ann" "X" "W" "yes" "" "")))
      ∈ aggregate_authors asciiChars [mkRow "Ann" "X" "W" "yes" "" ""] ∧
    ∃ gid g, alookup gid
        (runAgg asciiChars [mkRow "Ann" "X" "W" "yes" "" ""]).data = some g ∧
      (emitGroup asciiChars (mergeRow asciiChars emptyGroup
        (mkRow "Ann" "X" "W" "yes" "" ""))) = emitGroup asciiChars g ∧
      ∀ m, isUniqueMax (g.author_names.map (normalize_name asciiChars)) m →
        (emitGroup asciiChars (mergeRow asciiChars emptyGroup
          (mkRow "Ann" "X" "W" "yes" "" ""))).author_name
          = titleCase asciiChars m :=
  ⟨by decide,
    claim_C3_modal_name asciiChars [mkRow "Ann" "X" "W" "yes" "" ""]
      (emitGroup asciiChars (mergeRow asciiChars emptyGroup
        (mkRow "Ann" "X" "W" "yes" "" ""))) (by decide)⟩

/-- Counterexample to C3 as stated: a group whose two raw names "B" and
"A" tie in normalized-form count.  The source emits "B" (the first form in
set-iteration order); the specification's lexicographic tie-break demands
"A". -/
theorem claim_C3_cex :
    (refAgg asciiChars (keyRows asciiChars
        [mkRow "B" "X" "W" "yes" "" "", mkRow "A" "X" "W2" "" "" ""]
        (RKey.byId "X"))).author_names = ["B", "A"] ∧
    (aggregate_authors asciiChars
        [mkRow "B" "X" "W" "yes" "" "", mkRow "A" "X" "W2" "" "" ""]).map
      OutputRow.author_name = ["B"] ∧
    specCanonicalName asciiChars ["B", "A"] = "A" ∧
    ("B" : String) ≠ "A" :=
  ⟨by decide, by decide, by decide, by decide⟩

/-- One more element to sort folds into one insertion. -/
theorem pySorted_append_one {α : Type} (le : α → α → Bool) (l : List α) (x : α) :
    pySorted le (l ++ [x]) = insSorted le x (pySorted le l) := by
  unfold pySorted
  rw [List.foldl_append]
  rfl

/-- Membership in an insertion. -/
theorem mem_insSorted {α : Type} (le : α → α → Bool) (x a : α) (l : List α) :
    a ∈ insSorted le x l ↔ a = x ∨ a ∈ l := by
  rw [(insSorted_perm le x l).mem_iff, List.mem_cons]

/-- Inserting preserves sortedness for a transitive total preorder. -/
theorem insSorted_sorted {α : Type} (le : α → α → Bool)
    (htrans : ∀ a b c, le a b = true → le b c = true → le a c = true)
    (htotal : ∀ a b, le a b = true ∨ le b a = true) (x : α) :
    ∀ l : List α, l.Pairwise (fun a b => le a b = true) →
      (insSorted le x l).Pairwise (fun a b => le a b = true) := by
  intro l
  induction l with
  | nil => intro _; simp [insSorted]
  | cons y ys ih =>
    intro hs
    rw [List.pairwise_cons] at hs
    obtain ⟨hy, hys⟩ := hs
    by_cases h : le x y && ! le y x
    · simp only [insSorted, h, if_true, ite_true]
      rw [List.pairwise_cons]
      constructor
      · intro z hz
        rcases List.mem_cons.mp hz with rfl | hz
        · exact (Bool.and_eq_true _ _).mp h |>.1
        · exact htrans x y z ((Bool.and_eq_true _ _).mp h).1 (hy z hz)
      · rw [List.pairwise_cons]
        exact ⟨hy, hys⟩
    · have hrw : insSorted le x (y :: ys) = y :: insSorted le x ys := by
        simp [insSorted, h]
      rw [hrw, List.pairwise_cons]
      constructor
      · intro z hz
        rcases (mem_insSorted le x z ys).mp hz with rfl | hz
        · rcases htotal y z with h1 | h2
          · exact h1
          · by_cases hyz : le y z = true
            · exact hyz
            · exfalso
              apply h
              have hyzf : le y z = false := by
                cases hq : le y z
                · rfl
                · exact absurd hq hyz
              rw [h2, hyzf]
              rfl
        · exact hy z hz
      · exact ih hys

/-- The stable sort's output is sorted for a transitive total preorder. -/
theorem pySorted_sorted {α : Type} (le : α → α → Bool)
    (htrans : ∀ a b c, le a b = true → le b c = true → le a c = true)
    (htotal : ∀ a b, le a b = true ∨ le b a = true) (l : List α) :
    (pySorted le l).Pairwise (fun a b => le a b = true) := by
  induction l using List.reverseRecOn with
  | nil => simp [pySorted]
  | append_singleton l x ih =>
    rw [pySorted_append_one]
    exact insSorted_sorted le htrans htotal x _ ih

/-- The sorted list is a supersequence of the list before insertion. -/
theorem insSorted_sublist {α : Type} (le : α → α → Bool) (x : α) :
    ∀ l : List α, l.Sublist (insSorted le x l) := by
  intro l
  induction l with
  | nil => simp [insSorted]
  | cons y ys ih =>
    by_cases h : le x y && ! le y x
    · simp only [insSorted, h, if_true, ite_true]
      exact List.Sublist.cons x (List.Sublist.refl _)
    · have hrw : insSorted le x (y :: ys) = y :: insSorted le x ys := by
        simp [insSorted, h]
      rw [hrw]
      exact List.Sublist.cons₂ y ih

/-- Inserting `x` after an `a` already placed keeps the pair in order. -/
theorem insSorted_pair {α : Type} (le : α → α → Bool)
    (htrans : ∀ a b c, le a b = true → le b c = true → le a c = true)
    (a x : α) (hax : le a x = true) :
    ∀ s : List α, s.Pairwise (fun u v => le u v = true) → a ∈ s →
      [a, x].Sublist (insSorted le x s) := by
  intro s
  induction s with
  | nil => intro _ ha; cases ha
  | cons y ys ih =>
    intro hs ha
    rw [List.pairwise_cons] at hs
    obtain ⟨hy, hys⟩ := hs
    by_cases h : le x y && ! le y x
    · obtain ⟨hxy, hyx⟩ := (Bool.and_eq_true _ _).mp h
      have hyx2 : le y x = false := by simpa using hyx
      rcases List.mem_cons.mp ha with rfl | ha
      · exact absurd hax (by rw [hyx2]; simp)
      · exact absurd (htrans y a x (hy a ha) hax) (by rw [hyx2]; simp)
    · have hrw : insSorted le x (y :: ys) = y :: insSorted le x ys := by
        simp [insSorted, h]
      rw [hrw]
      rcases List.mem_cons.mp ha with rfl | ha
      · exact List.Sublist.cons₂ a
          (List.singleton_sublist.mpr ((mem_insSorted le x x ys).mpr (Or.inl rfl)))
      · exact List.Sublist.cons y (ih hys ha)

/-- **Stability**: a pair already in acceptable order (`le a b`) keeps its
relative order through the stable sort. -/
theorem pySorted_pair_sublist {α : Type} (le : α → α → Bool)
    (htrans : ∀ a b c, le a b = true → le b c = true → le a c = true)
    (htotal : ∀ a b, le a b = true ∨ le b a = true) (a b : α) :
    ∀ l : List α, [a, b].Sublist l → le a b = true →
      [a, b].Sublist (pySorted le l) := by
  intro l
  induction l using List.reverseRecOn with
  | nil => intro h _; simp at h
  | append_singleton l x ih =>
    intro hsub hab
    rw [pySorted_append_one]
    rw [List.sublist_append_iff] at hsub
    obtain ⟨l1, l2, heq, hl1, hl2⟩ := hsub
    have hl2c : l2 = [] ∨ l2 = [x] := by
      cases hl2 with
      | cons _ h2 => cases h2; exact Or.inl rfl
      | cons₂ _ h2 => cases h2; exact Or.inr rfl
    rcases hl2c with rfl | rfl
    · rw [List.append_nil] at heq
      subst heq
      exact (ih hl1 hab).trans (insSorted_sublist le x _)
    · have hl1a : l1 = [a] ∧ b = x := by
        cases l1 with
        | nil => cases heq
        | cons p t =>
          cases t with
          | nil =>
            simp only [List.cons_append, List.nil_append, List.cons.injEq] at heq
            exact ⟨by rw [heq.1], heq.2.1⟩
          | cons q t2 =>
            simp only [List.cons_append, List.cons.injEq] at heq
            obtain ⟨_, _, h3⟩ := heq
            cases t2 with
            | nil => cases h3
            | cons _ _ => cases h3
      obtain ⟨rfl, rfl⟩ := hl1a
      have ha : a ∈ pySorted le l :=
        (pySorted_perm le l).mem_iff.mpr (List.singleton_sublist.mp hl1)
      exact insSorted_pair le htrans a b hab (pySorted le l)
        (pySorted_sorted le htrans htotal l) ha

/-- **C2 (amended)**: the finalized output is sorted by `works_count`
descending; it is a permutation of the emitted group rows; and rows with
equal (or descending) `works_count` keep their pre-sort relative order —
group-creation order — rather than being reordered by `author_name`. -/
theorem claim_C2_sorted_output (M : CharModel) (l : List Row) :
    (aggregate_authors M l).Pairwise
      (fun a b : OutputRow => b.works_count ≤ a.works_count) ∧
    List.Perm (aggregate_authors M l) (emitRows M (runAgg M l)) ∧
    ∀ a b : OutputRow, [a, b].Sublist (emitRows M (runAgg M l)) →
      b.works_count ≤ a.works_count →
      [a, b].Sublist (aggregate_authors M l) := by
  have htrans : ∀ a b c : OutputRow,
      decide (b.works_count ≤ a.works_count) = true →
      decide (c.works_count ≤ b.works_count) = true →
      decide (c.works_count ≤ a.works_count) = true := by
    intro a b c h1 h2
    simp only [decide_eq_true_eq] at h1 h2 ⊢
    omega
  have htotal : ∀ a b : OutputRow,
      decide (b.works_count ≤ a.works_count) = true ∨
      decide (a.works_count ≤ b.works_count) = true := by
    intro a b
    simp only [decide_eq_true_eq]
    omega
  refine ⟨?_, ?_, ?_⟩
  · have := pySorted_sorted (fun a b : OutputRow =>
      decide (b.works_count ≤ a.works_count)) htrans htotal
      (emitRows M (runAgg M l))
    apply List.Pairwise.imp _ this
    intro a b h
    simpa using h
  · exact pySorted_perm _ _
  · intro a b hsub hle
    exact pySorted_pair_sublist _ htrans htotal a b _ hsub (by simpa using hle)

/-- Counterexample to C2 as stated: two groups with equal `works_count`
created in the order "B", "A" are emitted in that order — `author_name`
descending, not ascending. -/
theorem claim_C2_cex :
    (aggregate_authors asciiChars
        [mkRow "B" "" "W1" "yes" "" "", mkRow "A" "" "W2" "yes" "" ""]).map
      (fun r => (r.works_count, r.author_name)) = [(1, "B"), (1, "A")] ∧
    pyStrLe "B" "A" = false ∧ pyStrLe "A" "B" = true :=
  ⟨by decide, by decide, by decide⟩

/-- The per-row update of each remaining set field, for the generic
projection lemma. -/
theorem mergeRow_author_ids_step (M : CharModel) (g : GroupData) (r : Row) :
    (mergeRow M g r).author_ids = insertAll g.author_ids
      (if pyStrip M r.author_id ≠ "" then [pyStrip M r.author_id] else []) := by
  by_cases h : pyStrip M r.author_id = "" <;> simp [mergeRow, insertAll, h, dedupInsert]

theorem mergeRow_specific_step (M : CharModel) (g : GroupData) (r : Row) :
    (mergeRow M g r).specific_work_ids = insertAll g.specific_work_ids
      (if flagged M r then [pyStrip M r.id] else []) := by
  by_cases h : flagged M r <;> simp [mergeRow, insertAll, h]

theorem mergeRow_source_step (M : CharModel) (g : GroupData) (r : Row) :
    (mergeRow M g r).source_ids = insertAll g.source_ids
      (if pyStrip M r.source_id ≠ "" then [pyStrip M r.source_id] else []) := by
  by_cases h : pyStrip M r.source_id = "" <;> simp [mergeRow, insertAll, h]

theorem mergeRow_years_step (M : CharModel) (g : GroupData) (r : Row) :
    (mergeRow M g r).years = insertAll g.years
      (match yearOf r.publication_date with
        | some y => [y]
        | none => []) := by
  cases h : yearOf r.publication_date <;> simp [mergeRow, insertAll, h]

/-- Order-insensitivity (up to list order) of every set field of a
reference aggregate, via its fold projection. -/
theorem author_names_refAgg_perm (M : CharModel) (rows rows' : List Row)
    (hp : List.Perm rows rows') :
    List.Perm (refAgg M rows).author_names (refAgg M rows').author_names := by
  have hproj := foldl_mergeRow_field M GroupData.author_names
    (fun r => [pyStrip M r.author_name]) (fun _ _ => rfl)
  unfold refAgg
  rw [hproj rows emptyGroup, hproj rows' emptyGroup]
  exact perm_foldl_insertAll _ rows rows' hp

theorem author_ids_refAgg_perm (M : CharModel) (rows rows' : List Row)
    (hp : List.Perm rows rows') :
    List.Perm (refAgg M rows).author_ids (refAgg M rows').author_ids := by
  have hproj := foldl_mergeRow_field M GroupData.author_ids
    (fun r => if pyStrip M r.author_id ≠ "" then [pyStrip M r.author_id] else [])
    (mergeRow_author_ids_step M)
  unfold refAgg
  rw [hproj rows emptyGroup, hproj rows' emptyGroup]
  exact perm_foldl_insertAll _ rows rows' hp

theorem work_ids_refAgg_perm (M : CharModel) (rows rows' : List Row)
    (hp : List.Perm rows rows') :
    List.Perm (refAgg M rows).work_ids (refAgg M rows').work_ids := by
  have hproj := foldl_mergeRow_field M GroupData.work_ids
    (fun r => [pyStrip M r.id]) (fun _ _ => rfl)
  unfold refAgg
  rw [hproj rows emptyGroup, hproj rows' emptyGroup]
  exact perm_foldl_insertAll _ rows rows' hp

theorem specific_refAgg_perm (M : CharModel) (rows rows' : List Row)
    (hp : List.Perm rows rows') :
    List.Perm (refAgg M rows).specific_work_ids
      (refAgg M rows').specific_work_ids := by
  have hproj := foldl_mergeRow_field M GroupData.specific_work_ids
    (fun r => if flagged M r then [pyStrip M r.id] else [])
    (mergeRow_specific_step M)
  unfold refAgg
  rw [hproj rows emptyGroup, hproj rows' emptyGroup]
  exact perm_foldl_insertAll _ rows rows' hp

theorem source_refAgg_perm (M : CharModel) (rows rows' : List Row)
    (hp : List.Perm rows rows') :
    List.Perm (refAgg M rows).source_ids (refAgg M rows').source_ids := by
  have hproj := foldl_mergeRow_field M GroupData.source_ids
    (fun r => if pyStrip M r.source_id ≠ "" then [pyStrip M r.source_id] else [])
    (mergeRow_source_step M)
  unfold refAgg
  rw [hproj rows emptyGroup, hproj rows' emptyGroup]
  exact perm_foldl_insertAll _ rows rows' hp

theorem years_refAgg_perm (M : CharModel) (rows rows' : List Row)
    (hp : List.Perm rows rows') :
    List.Perm (refAgg M rows).years (refAgg M rows').years := by
  have hproj := foldl_mergeRow_field M GroupData.years
    (fun r => match yearOf r.publication_date with
      | some y => [y]
      | none => []) (mergeRow_years_step M)
  unfold refAgg
  rw [hproj rows emptyGroup, hproj rows' emptyGroup]
  exact perm_foldl_insertAll _ rows rows' hp

theorem institutions_refAgg_perm (M : CharModel) (rows rows' : List Row)
    (hp : List.Perm rows rows') :
    List.Perm (refAgg M rows).institutions (refAgg M rows').institutions := by
  have hproj := foldl_mergeRow_field M GroupData.institutions
    (fun r => splitSemi M r.institutions) (fun _ _ => rfl)
  unfold refAgg
  rw [hproj rows emptyGroup, hproj rows' emptyGroup]
  exact perm_foldl_insertAll _ rows rows' hp

theorem countries_refAgg_perm (M : CharModel) (rows rows' : List Row)
    (hp : List.Perm rows rows') :
    List.Perm (refAgg M rows).countries (refAgg M rows').countries := by
  have hproj := foldl_mergeRow_field M GroupData.countries
    (fun r => splitSemi M r.countries) (fun _ _ => rfl)
  unfold refAgg
  rw [hproj rows emptyGroup, hproj rows' emptyGroup]
  exact perm_foldl_insertAll _ rows rows' hp

theorem affiliations_refAgg_perm (M : CharModel) (rows rows' : List Row)
    (hp : List.Perm rows rows') :
    List.Perm (refAgg M rows).affiliations (refAgg M rows').affiliations := by
  have hproj := foldl_mergeRow_field M GroupData.affiliations
    (fun r => splitSemi M r.affiliations_comment) (fun _ _ => rfl)
  unfold refAgg
  rw [hproj rows emptyGroup, hproj rows' emptyGroup]
  exact perm_foldl_insertAll _ rows rows' hp

/-- The citation map of the row fold is the fold of `citedStep`. -/
theorem foldl_mergeRow_cited (M : CharModel) :
    ∀ (rows : List Row) (g : GroupData),
      (rows.foldl (mergeRow M) g).cited_by_per_work
        = rows.foldl (citedStep M) g.cited_by_per_work := by
  intro rows
  induction rows with
  | nil => intro g; rfl
  | cons r t ih =>
    intro g
    have h1 : (r :: t).foldl (mergeRow M) g = t.foldl (mergeRow M) (mergeRow M g r) := rfl
    rw [h1, ih]
    rfl

/-- Appending a different key does not change a lookup. -/
theorem alookup_append_ne {α β : Type} [DecidableEq α] (k w : α) (v : β)
    (hkw : k ≠ w) :
    ∀ m : List (α × β), alookup w (m ++ [(k, v)]) = alookup w m := by
  intro m
  induction m with
  | nil => simp [alookup, hkw]
  | cons p t ih =>
    obtain ⟨a, b⟩ := p
    by_cases haw : a = w
    · simp [alookup, haw]
    · simp only [List.cons_append, alookup, if_neg haw]
      exact ih

/-- A failed lookup means the key is on no entry. -/
theorem alookup_eq_none_iff {α β : Type} [DecidableEq α] (k : α) :
    ∀ m : List (α × β), alookup k m = none ↔ ∀ p ∈ m, p.1 ≠ k := by
  intro m
  induction m with
  | nil => simp [alookup]
  | cons p t ih =>
    obtain ⟨a, b⟩ := p
    by_cases hak : a = k
    · simp [alookup, hak]
    · simp only [alookup, if_neg hak, ih, List.mem_cons]
      constructor
      · rintro h q (rfl | hq)
        · exact hak
        · exact h q hq
      · intro h q hq
        exact h q (Or.inr hq)

/-- A successful lookup is a member. -/
theorem alookup_some_mem {α β : Type} [DecidableEq α] (k : α) (v : β) :
    ∀ m : List (α × β), alookup k m = some v → (k, v) ∈ m := by
  intro m
  induction m with
  | nil => intro h; cases h
  | cons p t ih =>
    obtain ⟨a, b⟩ := p
    by_cases hak : a = k
    · subst hak
      intro h
      obtain rfl : b = v := by simpa [alookup] using h
      exact List.mem_cons_self _ _
    · intro h
      rw [alookup, if_neg hak] at h
      exact List.mem_cons_of_mem _ (ih h)

/-- The citation fold keeps its keys duplicate-free. -/
theorem citedFold_keys_nodup (M : CharModel) :
    ∀ (rows : List Row) (m : List (String × Int)),
      (m.map Prod.fst).Nodup →
      ((rows.foldl (citedStep M) m).map Prod.fst).Nodup := by
  intro rows
  induction rows with
  | nil => intro m h; exact h
  | cons r t ih =>
    intro m h
    apply ih
    unfold citedStep
    cases hv : pyInt? r.cited_by_count with
    | none => exact h
    | some v =>
      cases hl : alookup (pyStrip M r.id) m with
      | some u => exact h
      | none =>
        rw [List.map_append]
        apply List.Nodup.append h (List.nodup_singleton _)
        intro w hw hw2
        obtain ⟨p, hp, hpw⟩ := List.mem_map.mp hw
        have hkey := (alookup_eq_none_iff _ m).mp hl p hp
        simp only [List.map_cons, List.map_nil, List.mem_singleton] at hw2
        exact hkey (hpw.trans hw2)

/-- Every entry of the citation fold came from a parsing row. -/
theorem citedFold_mem_src (M : CharModel) :
    ∀ (rows : List Row) (m : List (String × Int)) (w : String) (v : Int),
      (w, v) ∈ rows.foldl (citedStep M) m →
      (w, v) ∈ m ∨ ∃ r ∈ rows, pyStrip M r.id = w ∧
        pyInt? r.cited_by_count = some v := by
  intro rows
  induction rows with
  | nil => intro m w v h; exact Or.inl h
  | cons r t ih =>
    intro m w v h
    have h1 : (r :: t).foldl (citedStep M) m
        = t.foldl (citedStep M) (citedStep M m r) := rfl
    rw [h1] at h
    rcases ih (citedStep M m r) w v h with hmem | ⟨r2, hr2, hw2⟩
    · unfold citedStep at hmem
      cases hv : pyInt? r.cited_by_count with
      | none =>
        rw [hv] at hmem
        exact Or.inl hmem
      | some u =>
        rw [hv] at hmem
        cases hl : alookup (pyStrip M r.id) m with
        | some z => rw [hl] at hmem; exact Or.inl hmem
        | none =>
          rw [hl] at hmem
          rcases List.mem_append.mp hmem with hmem | hmem
          · exact Or.inl hmem
          · simp only [List.mem_singleton, Prod.mk.injEq] at hmem
            exact Or.inr ⟨r, List.mem_cons_self _ _, hmem.1.symm,
              by rw [hv, hmem.2]⟩
    · exact Or.inr ⟨r2, List.mem_cons_of_mem _ hr2, hw2⟩

/-- A stored citation survives the rest of the fold. -/
theorem citedFold_preserves (M : CharModel) :
    ∀ (rows : List Row) (m : List (String × Int)) (w : String) (v : Int),
      alookup w m = some v →
      alookup w (rows.foldl (citedStep M) m) = some v := by
  intro rows
  induction rows with
  | nil => intro m w v h; exact h
  | cons r t ih =>
    intro m w v h
    apply ih
    unfold citedStep
    cases hv : pyInt? r.cited_by_count with
    | none => exact h
    | some u =>
      cases hl : alookup (pyStrip M r.id) m with
      | some z => exact h
      | none =>
        have hne : pyStrip M r.id ≠ w := by
          intro heq
          rw [heq, h] at hl
          cases hl
        rw [alookup_append_ne _ _ _ hne]
        exact h

/-- Under per-work-consistent citations, a parsing row's value is stored. -/
theorem citedFold_complete (M : CharModel) (w : String) (v : Int) :
    ∀ (rows : List Row) (m : List (String × Int)),
      (∀ r ∈ rows, pyStrip M r.id = w → pyInt? r.cited_by_count = some v) →
      (∃ r ∈ rows, pyStrip M r.id = w ∧ pyInt? r.cited_by_count = some v) →
      (alookup w m = none ∨ alookup w m = some v) →
      alookup w (rows.foldl (citedStep M) m) = some v := by
  intro rows
  induction rows with
  | nil =>
    intro m _ hex _
    obtain ⟨r, hr, _⟩ := hex
    cases hr
  | cons r0 t ih =>
    intro m hall hex hm
    have h1 : (r0 :: t).foldl (citedStep M) m
        = t.foldl (citedStep M) (citedStep M m r0) := rfl
    rw [h1]
    by_cases hw0 : pyStrip M r0.id = w
    · have hv0 : pyInt? r0.cited_by_count = some v := hall r0 (List.mem_cons_self _ _) hw0
      rcases hm with hm | hm
      · have hstep : citedStep M m r0 = m ++ [(w, v)] := by
          unfold citedStep
          rw [hv0, hw0, hm]
        rw [hstep]
        exact citedFold_preserves M t _ w v (alookup_append_self w v m hm)
      · have hstep : citedStep M m r0 = m := by
          unfold citedStep
          rw [hv0, hw0, hm]
        rw [hstep]
        exact citedFold_preserves M t m w v hm
    · have hm2 : alookup w (citedStep M m r0) = none ∨
          alookup w (citedStep M m r0) = some v := by
        unfold citedStep
        cases hv : pyInt? r0.cited_by_count with
        | none => exact hm
        | some u =>
          cases hl : alookup (pyStrip M r0.id) m with
          | some z => exact hm
          | none =>
            rw [alookup_append_ne _ _ _ hw0]
            exact hm
      have hex2 : ∃ r ∈ t, pyStrip M r.id = w ∧ pyInt? r.cited_by_count = some v := by
        obtain ⟨r, hr, hrw, hrv⟩ := hex
        rcases List.mem_cons.mp hr with rfl | hr
        · exact absurd hrw hw0
        · exact ⟨r, hr, hrw, hrv⟩
      exact ih _ (fun r hr hrw => hall r (List.mem_cons_of_mem _ hr) hrw) hex2 hm2

/-- Under per-work-consistent citations, the citation map is
order-independent up to entry order. -/
theorem cited_refAgg_perm (M : CharModel) (rows rows' : List Row)
    (hp : List.Perm rows rows')
    (hcons : ∀ r1 ∈ rows, ∀ r2 ∈ rows, pyStrip M r1.id = pyStrip M r2.id →
      pyInt? r1.cited_by_count = pyInt? r2.cited_by_count) :
    List.Perm (refAgg M rows).cited_by_per_work
      (refAgg M rows').cited_by_per_work := by
  have hL : (refAgg M rows).cited_by_per_work
      = rows.foldl (citedStep M) [] := foldl_mergeRow_cited M rows emptyGroup
  have hR : (refAgg M rows').cited_by_per_work
      = rows'.foldl (citedStep M) [] := foldl_mergeRow_cited M rows' emptyGroup
  rw [hL, hR]
  have hmem : ∀ (a b : List Row), List.Perm a b →
      (∀ r1 ∈ a, ∀ r2 ∈ a, pyStrip M r1.id = pyStrip M r2.id →
        pyInt? r1.cited_by_count = pyInt? r2.cited_by_count) →
      ∀ w v, (w, v) ∈ a.foldl (citedStep M) [] → (w, v) ∈ b.foldl (citedStep M) [] := by
    intro a b hab hconsa w v hwv
    rcases citedFold_mem_src M a [] w v hwv with h0 | ⟨r, hr, hrw, hrv⟩
    · cases h0
    · apply alookup_some_mem
      apply citedFold_complete M w v b []
      · intro r2 hr2 hr2w
        have hr2a : r2 ∈ a := hab.mem_iff.mpr hr2
        rw [hconsa r2 hr2a r hr (by rw [hr2w, hrw]), hrv]
      · exact ⟨r, hab.mem_iff.mp hr, hrw, hrv⟩
      · exact Or.inl rfl
  apply (List.perm_ext_iff_of_nodup
    ((citedFold_keys_nodup M rows [] (by simp)).of_map Prod.fst)
    ((citedFold_keys_nodup M rows' [] (by simp)).of_map Prod.fst)).mpr
  intro p
  obtain ⟨w, v⟩ := p
  constructor
  · exact hmem rows rows' hp hcons w v
  · refine hmem rows' rows hp.symm ?_ w v
    intro r1 hr1 r2 hr2 hw
    exact hcons r1 (hp.mem_iff.mpr hr1) r2 (hp.mem_iff.mpr hr2) hw

/-- All group contents are order-independent up to set order (citations
under the consistency hypothesis). -/
theorem refAgg_groupPermEq (M : CharModel) (rows rows' : List Row)
    (hp : List.Perm rows rows')
    (hcons : ∀ r1 ∈ rows, ∀ r2 ∈ rows, pyStrip M r1.id = pyStrip M r2.id →
      pyInt? r1.cited_by_count = pyInt? r2.cited_by_count) :
    groupPermEq (refAgg M rows) (refAgg M rows') :=
  ⟨author_names_refAgg_perm M rows rows' hp,
    author_ids_refAgg_perm M rows rows' hp,
    work_ids_refAgg_perm M rows rows' hp,
    specific_refAgg_perm M rows rows' hp,
    cited_refAgg_perm M rows rows' hp hcons,
    years_refAgg_perm M rows rows' hp,
    source_refAgg_perm M rows rows' hp,
    institutions_refAgg_perm M rows rows' hp,
    countries_refAgg_perm M rows rows' hp,
    affiliations_refAgg_perm M rows rows' hp⟩

/-- Code-point order is total. -/
theorem listCharLe_total : ∀ a b : List Char,
    listCharLe a b = true ∨ listCharLe b a = true := by
  intro a
  induction a with
  | nil => intro b; left; rfl
  | cons c cs ih =>
    intro b
    cases b with
    | nil => right; rfl
    | cons d ds =>
      by_cases h1 : c.toNat < d.toNat
      · left; simp [listCharLe, h1]
      by_cases h2 : d.toNat < c.toNat
      · right; simp [listCharLe, h2]
      · rcases ih ds with h | h
        · left; simp [listCharLe, h1, h2, h]
        · right; simp [listCharLe, h1, h2, h]

/-- Code-point order is transitive. -/
theorem listCharLe_trans : ∀ a b c : List Char,
    listCharLe a b = true → listCharLe b c = true → listCharLe a c = true := by
  intro a
  induction a with
  | nil => intro b c _ _; rfl
  | cons x xs ih =>
    intro b c hab hbc
    cases b with
    | nil => exact absurd hab (by simp [listCharLe])
    | cons y ys =>
      cases c with
      | nil => exact absurd hbc (by simp [listCharLe])
      | cons z zs =>
        unfold listCharLe at hab hbc ⊢
        by_cases hxy : x.toNat < y.toNat
        · rw [if_pos hxy] at hab
          by_cases hyz : y.toNat < z.toNat
          · rw [if_pos (show x.toNat < z.toNat by omega)]
          · by_cases hzy : z.toNat < y.toNat
            · rw [if_neg hyz, if_pos hzy] at hbc
              cases hbc
            · rw [if_pos (show x.toNat < z.toNat by omega)]
        · by_cases hyx : y.toNat < x.toNat
          · rw [if_neg hxy, if_pos hyx] at hab
            cases hab
          · by_cases hyz : y.toNat < z.toNat
            · rw [if_pos (show x.toNat < z.toNat by omega)]
            · by_cases hzy : z.toNat < y.toNat
              · rw [if_neg hyz, if_pos hzy] at hbc
                cases hbc
              · rw [if_neg hxy, if_neg hyx] at hab
                rw [if_neg hyz, if_neg hzy] at hbc
                rw [if_neg (show ¬ x.toNat < z.toNat by omega),
                  if_neg (show ¬ z.toNat < x.toNat by omega)]
                exact ih ys zs hab hbc

/-- Code-point order is antisymmetric. -/
theorem listCharLe_antisymm : ∀ a b : List Char,
    listCharLe a b = true → listCharLe b a = true → a = b := by
  intro a
  induction a with
  | nil =>
    intro b _ hba
    cases b with
    | nil => rfl
    | cons d ds => exact absurd hba (by simp [listCharLe])
  | cons x xs ih =>
    intro b hab hba
    cases b with
    | nil => exact absurd hab (by simp [listCharLe])
    | cons y ys =>
      unfold listCharLe at hab hba
      by_cases hxy : x.toNat < y.toNat
      · rw [if_neg (show ¬ y.toNat < x.toNat by omega),
          if_pos hxy] at hba
        cases hba
      · by_cases hyx : y.toNat < x.toNat
        · rw [if_neg hxy, if_pos hyx] at hab
          cases hab
        · rw [if_neg hxy, if_neg hyx] at hab
          rw [if_neg hyx, if_neg hxy] at hba
          have hx : x = y := Char.ext (UInt32.ext (by
            unfold Char.toNat at hxy hyx; omega))
          rw [hx, ih ys hab hba]

/-- Python string order, lifted: total, transitive, antisymmetric. -/
theorem pyStrLe_total (a b : String) :
    pyStrLe a b = true ∨ pyStrLe b a = true :=
  listCharLe_total a.data b.data

theorem pyStrLe_trans (a b c : String) (hab : pyStrLe a b = true)
    (hbc : pyStrLe b c = true) : pyStrLe a c = true :=
  listCharLe_trans a.data b.data c.data hab hbc

theorem pyStrLe_antisymm (a b : String) (hab : pyStrLe a b = true)
    (hba : pyStrLe b a = true) : a = b :=
  String.ext (listCharLe_antisymm a.data b.data hab hba)

/-- The string sort is determined by the set of strings alone. -/
theorem sortStr_eq_of_perm (l l' : List String) (hp : List.Perm l l') :
    sortStr l = sortStr l' := by
  letI : IsAntisymm String (fun a b => pyStrLe a b = true) :=
    ⟨fun a b hab hba => pyStrLe_antisymm a b hab hba⟩
  apply List.eq_of_perm_of_sorted (r := fun a b => pyStrLe a b = true)
    ((pySorted_perm pyStrLe l).trans (hp.trans (pySorted_perm pyStrLe l').symm))
  · exact pySorted_sorted pyStrLe
      (fun a b c => pyStrLe_trans a b c) (fun a b => pyStrLe_total a b) l
  · exact pySorted_sorted pyStrLe
      (fun a b c => pyStrLe_trans a b c) (fun a b => pyStrLe_total a b) l'

/-- The year sort is determined by the set of years alone. -/
theorem sortYears_eq_of_perm (l l' : List Int) (hp : List.Perm l l') :
    pySorted (fun a b => a ≤ b) l = pySorted (fun a b => a ≤ b) l' := by
  letI : IsAntisymm Int (fun a b : Int => (decide (a ≤ b)) = true) :=
    ⟨fun a b hab hba => by
      simp only [decide_eq_true_eq] at hab hba
      omega⟩
  have htrans : ∀ a b c : Int, decide (b ≤ a) = true → False ∨ True := by
    intro _ _ _ _; right; trivial
  apply List.eq_of_perm_of_sorted (r := fun a b : Int => (decide (a ≤ b)) = true)
    ((pySorted_perm _ l).trans (hp.trans (pySorted_perm _ l').symm))
  · exact pySorted_sorted _
      (fun a b c h1 h2 => by
        simp only [decide_eq_true_eq] at h1 h2 ⊢
        omega)
      (fun a b => by
        simp only [decide_eq_true_eq]
        omega) l
  · exact pySorted_sorted _
      (fun a b c h1 h2 => by
        simp only [decide_eq_true_eq] at h1 h2 ⊢
        omega)
      (fun a b => by
        simp only [decide_eq_true_eq]
        omega) l'

/-- A strict count maximizer transfers across a permutation. -/
theorem isUniqueMax_of_perm (ns ns' : List String) (m : String)
    (hp : List.Perm ns ns') (hm : isUniqueMax ns m) : isUniqueMax ns' m := by
  obtain ⟨hmem, hmax⟩ := hm
  constructor
  · rw [mem_firstDedup] at hmem ⊢
    exact hp.mem_iff.mp hmem
  · intro c hc hcm
    rw [mem_firstDedup] at hc
    rw [← hp.count_eq, ← hp.count_eq]
    exact hmax c ((mem_firstDedup ns c).mpr (hp.mem_iff.mpr hc)) hcm

/-- Two groups with the same contents (up to set order) emit the same
output row, provided the raw-name counts have a strict maximizer. -/
theorem emitGroup_congr (M : CharModel) (g g' : GroupData) (m : String)
    (hg : groupPermEq g g')
    (hm : isUniqueMax (g.author_names.map (normalize_name M)) m) :
    emitGroup M g = emitGroup M g' := by
  obtain ⟨hnames, hids, hworks, hspec, hcited, hyears, hsrc, hinst, hctry, haff⟩ := hg
  have hname : chooseName M g.author_names = chooseName M g'.author_names := by
    rw [chooseName_of_uniqueMax M g.author_names m hm,
      chooseName_of_uniqueMax M g'.author_names m
        (isUniqueMax_of_perm _ _ m (hnames.map (normalize_name M)) hm)]
  have h1 : sortStr g.author_ids = sortStr g'.author_ids := sortStr_eq_of_perm _ _ hids
  have h2 : g.work_ids.length = g'.work_ids.length := hworks.length_eq
  have h3 : g.specific_work_ids.length = g'.specific_work_ids.length := hspec.length_eq
  have h4 : g.source_ids.length = g'.source_ids.length := hsrc.length_eq
  have h5 : (g.cited_by_per_work.map Prod.snd).sum
      = (g'.cited_by_per_work.map Prod.snd).sum :=
    (hcited.map Prod.snd).sum_eq
  have h6 : pySorted (fun a b => a ≤ b) g.years
      = pySorted (fun a b => a ≤ b) g'.years := sortYears_eq_of_perm _ _ hyears
  have h7 : sortStr g.institutions = sortStr g'.institutions := sortStr_eq_of_perm _ _ hinst
  have h8 : sortStr g.countries = sortStr g'.countries := sortStr_eq_of_perm _ _ hctry
  have h9 : sortStr g.affiliations = sortStr g'.affiliations := sortStr_eq_of_perm _ _ haff
  simp only [emitGroup, hname, h1, h2, h3, h4, h5, h6, h7, h8, h9]

/-- A tabled key's run contents are the reference aggregate of its rows. -/
theorem contentsAt_canonState_mem (M : CharModel) (l : List Row) (k : RKey)
    (hk : k ∈ keysOf M l) :
    contentsAt (canonState M l) k = some (refAgg M (keyRows M l k)) := by
  obtain ⟨ks1, ks2, hsplit, h1, _⟩ :=
    exists_split_of_mem_nodup _ _ hk (keysOf_nodup M l)
  cases k with
  | byId x =>
    show (alookup x (idMapOf 0 (keysOf M l))).bind
        (fun gid => alookup gid (dataOf M 0 l (keysOf M l))) = _
    rw [hsplit, alookup_idMapOf_pos x ks1 ks2 0 h1]
    show alookup (0 + ks1.length) (dataOf M 0 l (ks1 ++ RKey.byId x :: ks2)) = _
    exact alookup_dataOf_pos M l (RKey.byId x) ks1 ks2 0
  | byName x =>
    show (alookup x (nameMapOf 0 (keysOf M l))).bind
        (fun gid => alookup gid (dataOf M 0 l (keysOf M l))) = _
    rw [hsplit, alookup_nameMapOf_pos x ks1 ks2 0 h1]
    show alookup (0 + ks1.length) (dataOf M 0 l (ks1 ++ RKey.byName x :: ks2)) = _
    exact alookup_dataOf_pos M l (RKey.byName x) ks1 ks2 0

/-- A key the run never saw has no contents. -/
theorem contentsAt_canonState_none (M : CharModel) (l : List Row) (k : RKey)
    (hk : k ∉ keysOf M l) : contentsAt (canonState M l) k = none := by
  cases k with
  | byId x =>
    show (alookup x (idMapOf 0 (keysOf M l))).bind
        (fun gid => alookup gid (dataOf M 0 l (keysOf M l))) = none
    rw [alookup_idMapOf_none x (keysOf M l) 0 hk]
    rfl
  | byName x =>
    show (alookup x (nameMapOf 0 (keysOf M l))).bind
        (fun gid => alookup gid (dataOf M 0 l (keysOf M l))) = none
    rw [alookup_nameMapOf_none x (keysOf M l) 0 hk]
    rfl

/-- The key set transfers across a stream permutation. -/
theorem keysOf_perm (M : CharModel) (l l' : List Row) (hp : List.Perm l l') :
    List.Perm (keysOf M l) (keysOf M l') := by
  apply (List.perm_ext_iff_of_nodup (keysOf_nodup M l) (keysOf_nodup M l')).mpr
  intro k
  rw [mem_keysOf, mem_keysOf]
  constructor
  · rintro ⟨r, hr, hkr⟩
    exact ⟨r, hp.mem_iff.mp hr, hkr⟩
  · rintro ⟨r, hr, hkr⟩
    exact ⟨r, hp.mem_iff.mpr hr, hkr⟩

/-- Projecting the group table through any per-group partial map lists the
keys in table order. -/
theorem filterMap_dataOf {β : Type} (M : CharModel) (l : List Row)
    (F : GroupData → Option β) :
    ∀ (ks : List RKey) (n : Nat),
      (dataOf M n l ks).filterMap (fun p => F p.2)
        = ks.filterMap (fun k => F (refAgg M (keyRows M l k))) := by
  intro ks
  induction ks with
  | nil => intro n; rfl
  | cons k t ih =>
    intro n
    cases hF : F (refAgg M (keyRows M l k)) with
    | none =>
      simp only [dataOf, List.filterMap_cons, hF]
      exact ih (n + 1)
    | some b =>
      simp only [dataOf, List.filterMap_cons, hF]
      rw [ih (n + 1)]

/-- The pre-sort emitted rows, written over the key list. -/
theorem emitRows_runAgg (M : CharModel) (l : List Row) :
    emitRows M (runAgg M l)
      = (keysOf M l).filterMap (fun k =>
          if (refAgg M (keyRows M l k)).specific_work_ids.length = 0 then none
          else some (emitGroup M (refAgg M (keyRows M l k)))) := by
  rw [runAgg_eq_canonState]
  exact filterMap_dataOf M l
    (fun g => if g.specific_work_ids.length = 0 then none
      else some (emitGroup M g)) (keysOf M l) 0

/-- Under a stream permutation, per-work-consistent citation counts and a
strict modal name per group, the pre-sort emissions are a permutation. -/
theorem emitRows_perm (M : CharModel) (l l' : List Row)
    (hp : List.Perm l l')
    (hcons : ∀ r1 ∈ l, ∀ r2 ∈ l, pyStrip M r1.id = pyStrip M r2.id →
      pyInt? r1.cited_by_count = pyInt? r2.cited_by_count)
    (hmax : ∀ k ∈ keysOf M l, ∃ m, isUniqueMax
      ((refAgg M (keyRows M l k)).author_names.map (normalize_name M)) m) :
    List.Perm (emitRows M (runAgg M l)) (emitRows M (runAgg M l')) := by
  rw [emitRows_runAgg, emitRows_runAgg]
  have hcongr : ∀ k ∈ keysOf M l',
      (if (refAgg M (keyRows M l' k)).specific_work_ids.length = 0 then none
        else some (emitGroup M (refAgg M (keyRows M l' k))))
      = (if (refAgg M (keyRows M l k)).specific_work_ids.length = 0 then none
        else some (emitGroup M (refAgg M (keyRows M l k)))) := by
    intro k hkm
    have hk : k ∈ keysOf M l := (keysOf_perm M l l' hp).mem_iff.mpr hkm
    have hkp : List.Perm (keyRows M l k) (keyRows M l' k) := hp.filter _
    have hconsk : ∀ r1 ∈ keyRows M l k, ∀ r2 ∈ keyRows M l k,
        pyStrip M r1.id = pyStrip M r2.id →
        pyInt? r1.cited_by_count = pyInt? r2.cited_by_count := by
      intro r1 hr1 r2 hr2
      exact hcons r1 (List.mem_filter.mp hr1).1 r2 (List.mem_filter.mp hr2).1
    have hg : groupPermEq (refAgg M (keyRows M l k)) (refAgg M (keyRows M l' k)) :=
      refAgg_groupPermEq M _ _ hkp hconsk
    obtain ⟨m, hm⟩ := hmax k hk
    have hemit : emitGroup M (refAgg M (keyRows M l k))
        = emitGroup M (refAgg M (keyRows M l' k)) :=
      emitGroup_congr M _ _ m hg hm
    have hlen : (refAgg M (keyRows M l' k)).specific_work_ids.length
        = (refAgg M (keyRows M l k)).specific_work_ids.length :=
      hg.2.2.2.1.length_eq.symm
    rw [hlen, hemit]
  rw [List.filterMap_congr hcongr]
  exact List.Perm.filterMap _ (keysOf_perm M l l' hp)

/-- **C1 (amended)**: reordering the input stream is observation-equivalent
only up to set order and output order, and only when the stream is
citation-consistent per work and every group's normalized raw names have a
strictly most frequent form.  Under those hypotheses every key's group
contents agree up to set order and the finalized outputs are a permutation
of one another.  The original claim of identical ordered output is refuted
by the counterexample: first-write-wins citation conflicts (and, likewise,
modal-name ties and the stable works-count-only sort) make the exact output
depend on arrival order. -/
theorem claim_C1_order_independence (M : CharModel) (l l' : List Row)
    (hp : List.Perm l l')
    (hcons : ∀ r1 ∈ l, ∀ r2 ∈ l, pyStrip M r1.id = pyStrip M r2.id →
      pyInt? r1.cited_by_count = pyInt? r2.cited_by_count)
    (hmax : ∀ k ∈ keysOf M l, ∃ m, isUniqueMax
      ((refAgg M (keyRows M l k)).author_names.map (normalize_name M)) m) :
    (∀ k : RKey,
      (contentsAt (runAgg M l) k = none ∧ contentsAt (runAgg M l') k = none) ∨
      (∃ g g', contentsAt (runAgg M l) k = some g ∧
        contentsAt (runAgg M l') k = some g' ∧ groupPermEq g g')) ∧
    List.Perm (aggregate_authors M l) (aggregate_authors M l') := by
  constructor
  · intro k
    by_cases hk : k ∈ keysOf M l
    · right
      have hkm : k ∈ keysOf M l' := (keysOf_perm M l l' hp).mem_iff.mp hk
      refine ⟨refAgg M (keyRows M l k), refAgg M (keyRows M l' k), ?_, ?_, ?_⟩
      · rw [runAgg_eq_canonState]
        exact contentsAt_canonState_mem M l k hk
      · rw [runAgg_eq_canonState]
        exact contentsAt_canonState_mem M l' k hkm
      · refine refAgg_groupPermEq M _ _ (hp.filter _) ?_
        intro r1 hr1 r2 hr2
        exact hcons r1 (List.mem_filter.mp hr1).1 r2 (List.mem_filter.mp hr2).1
    · left
      have hkm : k ∉ keysOf M l' := fun h => hk ((keysOf_perm M l l' hp).mem_iff.mpr h)
      constructor
      · rw [runAgg_eq_canonState]
        exact contentsAt_canonState_none M l k hk
      · rw [runAgg_eq_canonState]
        exact contentsAt_canonState_none M l' k hkm
  · have he := emitRows_perm M l l' hp hcons hmax
    show List.Perm
      (pySorted (fun a b => b.works_count ≤ a.works_count) (emitRows M (runAgg M l)))
      (pySorted (fun a b => b.works_count ≤ a.works_count) (emitRows M (runAgg M l')))
    exact (pySorted_perm _ _).trans (he.trans (pySorted_perm _ _).symm)

/-- Counterexample to C1 as stated: two rows for the same work with
conflicting citation counts; first-write-wins makes the emitted
`cited_by_count` depend on arrival order, so the outputs differ. -/
theorem claim_C1_cex :
    List.Perm
      [mkRow "A" "X" "W" "yes" "1" "", mkRow "A" "X" "W" "yes" "2" ""]
      [mkRow "A" "X" "W" "yes" "2" "", mkRow "A" "X" "W" "yes" "1" ""] ∧
    (aggregate_authors asciiChars
        [mkRow "A" "X" "W" "yes" "1" "", mkRow "A" "X" "W" "yes" "2" ""]).map
      OutputRow.cited_by_count = [1] ∧
    (aggregate_authors asciiChars
        [mkRow "A" "X" "W" "yes" "2" "", mkRow "A" "X" "W" "yes" "1" ""]).map
      OutputRow.cited_by_count = [2] :=
  ⟨List.Perm.swap _ _ _, by decide, by decide⟩

/-- Witness for C1 (amended) on a two-author stream and its reversal. -/
theorem claim_C1_witness :
    List.Perm
      [mkRow "Ann" "X" "W1" "yes" "3" "", mkRow "Bob" "" "W2" "yes" "" ""]
      [mkRow "Bob" "" "W2" "yes" "" "", mkRow "Ann" "X" "W1" "yes" "3" ""] ∧
    ((∀ k : RKey,
      (contentsAt (runAgg asciiChars
          [mkRow "Ann" "X" "W1" "yes" "3" "", mkRow "Bob" "" "W2" "yes" "" ""]) k
          = none ∧
        contentsAt (runAgg asciiChars
          [mkRow "Bob" "" "W2" "yes" "" "", mkRow "Ann" "X" "W1" "yes" "3" ""]) k
          = none) ∨
      (∃ g g', contentsAt (runAgg asciiChars
          [mkRow "Ann" "X" "W1" "yes" "3" "", mkRow "Bob" "" "W2" "yes" "" ""]) k
          = some g ∧
        contentsAt (runAgg asciiChars
          [mkRow "Bob" "" "W2" "yes" "" "", mkRow "Ann" "X" "W1" "yes" "3" ""]) k
          = some g' ∧ groupPermEq g g')) ∧
    List.Perm
      (aggregate_authors asciiChars
        [mkRow "Ann" "X" "W1" "yes" "3" "", mkRow "Bob" "" "W2" "yes" "" ""])
      (aggregate_authors asciiChars
        [mkRow "Bob" "" "W2" "yes" "" "", mkRow "Ann" "X" "W1" "yes" "3" ""])) :=
  have hp : List.Perm
      [mkRow "Ann" "X" "W1" "yes" "3" "", mkRow "Bob" "" "W2" "yes" "" ""]
      [mkRow "Bob" "" "W2" "yes" "" "", mkRow "Ann" "X" "W1" "yes" "3" ""] :=
    List.Perm.swap _ _ _
  have hmax : ∀ k ∈ keysOf asciiChars
      [mkRow "Ann" "X" "W1" "yes" "3" "", mkRow "Bob" "" "W2" "yes" "" ""],
      ∃ m, isUniqueMax
        ((refAgg asciiChars (keyRows asciiChars
            [mkRow "Ann" "X" "W1" "yes" "3" "", mkRow "Bob" "" "W2" "yes" "" ""]
            k)).author_names.map (normalize_name asciiChars)) m := by
    intro k hk
    have hks : keysOf asciiChars
        [mkRow "Ann" "X" "W1" "yes" "3" "", mkRow "Bob" "" "W2" "yes" "" ""]
        = [RKey.byId "X", RKey.byName "bob"] := by decide
    rw [hks] at hk
    rcases List.mem_cons.mp hk with rfl | hk2
    · refine ⟨"ann", ?_⟩
      unfold isUniqueMax
      exact ⟨by decide, by decide⟩
    rcases List.mem_cons.mp hk2 with rfl | hk3
    · refine ⟨"bob", ?_⟩
      unfold isUniqueMax
      exact ⟨by decide, by decide⟩
    · cases hk3
  ⟨hp, claim_C1_order_independence asciiChars _ _ hp (by decide) hmax⟩

/-- The head of a `dropWhile` residue fails the dropped predicate. -/
theorem head_dropWhile (p : Char → Bool) :
    ∀ (l : List Char) (c : Char), (l.dropWhile p).head? = some c → p c = false := by
  intro l
  induction l with
  | nil => intro c h; cases h
  | cons a t ih =>
    intro c h
    by_cases hp : p a = true
    · rw [List.dropWhile_cons_of_pos hp] at h
      exact ih c h
    · rw [List.dropWhile_cons_of_neg hp] at h
      rw [List.head?_cons, Option.some.injEq] at h
      subst h
      simpa using hp

/-- A list whose head fails `p` is untouched by `dropWhile p`. -/
theorem dropWhile_eq_self_of_head (p : Char → Bool) (l : List Char)
    (h : ∀ c, l.head? = some c → p c = false) : l.dropWhile p = l := by
  cases l with
  | nil => rfl
  | cons a t =>
    have ha := h a rfl
    rw [List.dropWhile_cons_of_neg (by simp [ha])]

/-- The head of a trimmed string fails the trimming predicate. -/
theorem trimBy_head (p : Char → Bool) (l : List Char) (c : Char)
    (h : (trimBy p l).head? = some c) : p c = false := by
  unfold trimBy at h
  rw [List.head?_reverse] at h
  have h2 : (l.dropWhile p).reverse.dropWhile p <:+ (l.dropWhile p).reverse :=
    List.dropWhile_suffix p
  obtain ⟨w, hw⟩ := h2
  have hlast : ((l.dropWhile p).reverse).getLast? = some c := by
    rw [← hw, List.getLast?_append, h]
    rfl
  rw [List.getLast?_reverse] at hlast
  exact head_dropWhile p l c hlast

/-- The last character of a trimmed string fails the trimming predicate. -/
theorem trimBy_last (p : Char → Bool) (l : List Char) (c : Char)
    (h : (trimBy p l).getLast? = some c) : p c = false := by
  unfold trimBy at h
  rw [List.getLast?_reverse] at h
  exact head_dropWhile p _ c h

/-- A list with no leading or trailing `p`-characters is already trimmed. -/
theorem trimBy_eq_self (p : Char → Bool) (l : List Char)
    (hh : ∀ c, l.head? = some c → p c = false)
    (hl : ∀ c, l.getLast? = some c → p c = false) : trimBy p l = l := by
  unfold trimBy
  rw [dropWhile_eq_self_of_head p l hh]
  rw [dropWhile_eq_self_of_head p l.reverse (by
    intro c hc
    rw [List.head?_reverse] at hc
    exact hl c hc)]
  exact List.reverse_reverse l

/-- Trimmed characters come from the original list. -/
theorem mem_trimBy (p : Char → Bool) (l : List Char) (c : Char)
    (h : c ∈ trimBy p l) : c ∈ l := by
  unfold trimBy at h
  rw [List.mem_reverse] at h
  have h2 := List.dropWhile_subset p h
  rw [List.mem_reverse] at h2
  exact List.dropWhile_subset p h2

/-- A trimmed list is a contiguous infix of the original. -/
theorem trimBy_mid (p : Char → Bool) (l : List Char) :
    List.IsInfix (trimBy p l) l := by
  have h1 : l.dropWhile p <:+ l := List.dropWhile_suffix p
  obtain ⟨s, hs⟩ := h1
  have h2 : (l.dropWhile p).reverse.dropWhile p <:+ (l.dropWhile p).reverse :=
    List.dropWhile_suffix p
  obtain ⟨w, hw⟩ := h2
  refine ⟨s, w.reverse, ?_⟩
  have hu : l.dropWhile p = trimBy p l ++ w.reverse := by
    show l.dropWhile p = ((l.dropWhile p).reverse.dropWhile p).reverse ++ w.reverse
    have h3 := congrArg List.reverse hw
    rw [List.reverse_append, List.reverse_reverse] at h3
    exact h3.symm
  conv_rhs => rw [← hs, hu]
  rw [List.append_assoc]

/-- Every character the collapse emits is the replacement space or an
uncollapsed (non-dashy) character of the input. -/
theorem mem_collapseGo (M : CharModel) :
    ∀ (b : Bool) (l : List Char) (a : Char), a ∈ collapseGo M b l →
      a = ' ' ∨ (a ∈ l ∧ dashy M a = false) := by
  intro b l
  induction l generalizing b with
  | nil => intro a ha; cases ha
  | cons c cs ih =>
    intro a ha
    by_cases hd : dashy M c = true
    · cases b
      · have he : collapseGo M false (c :: cs) = ' ' :: collapseGo M true cs := by
          simp [collapseGo, hd]
        rw [he] at ha
        rcases List.mem_cons.mp ha with rfl | ha2
        · left; rfl
        · rcases ih true a ha2 with h | ⟨h1, h2⟩
          · left; exact h
          · right; exact ⟨List.mem_cons_of_mem _ h1, h2⟩
      · have he : collapseGo M true (c :: cs) = collapseGo M true cs := by
          simp [collapseGo, hd]
        rw [he] at ha
        rcases ih true a ha with h | ⟨h1, h2⟩
        · left; exact h
        · right; exact ⟨List.mem_cons_of_mem _ h1, h2⟩
    · have he : collapseGo M b (c :: cs) = c :: collapseGo M false cs := by
        cases b <;> simp [collapseGo, hd]
      rw [he] at ha
      rcases List.mem_cons.mp ha with rfl | ha2
      · right; exact ⟨List.mem_cons_self _ _, by simpa using hd⟩
      · rcases ih false a ha2 with h | ⟨h1, h2⟩
        · left; exact h
        · right; exact ⟨List.mem_cons_of_mem _ h1, h2⟩

/-- Inside a run, the next emitted character is non-dashy. -/
theorem collapseGo_true_head (M : CharModel) :
    ∀ (l : List Char) (c : Char), (collapseGo M true l).head? = some c →
      dashy M c = false := by
  intro l
  induction l with
  | nil => intro c h; cases h
  | cons a t ih =>
    intro c h
    by_cases hd : dashy M a = true
    · have he : collapseGo M true (a :: t) = collapseGo M true t := by
        simp [collapseGo, hd]
      rw [he] at h
      exact ih c h
    · have he : collapseGo M true (a :: t) = a :: collapseGo M false t := by
        simp [collapseGo, hd]
      rw [he, List.head?_cons, Option.some.injEq] at h
      subst h
      simpa using hd

/-- The collapse never emits two adjacent dashy characters. -/
theorem collapseGo_chain (M : CharModel) :
    ∀ (l : List Char) (b : Bool),
      List.Chain' (fun a c => ¬(dashy M a = true ∧ dashy M c = true))
        (collapseGo M b l) := by
  intro l
  induction l with
  | nil => intro b; cases b <;> exact List.chain'_nil
  | cons a t ih =>
    intro b
    by_cases hd : dashy M a = true
    · cases b
      · have he : collapseGo M false (a :: t) = ' ' :: collapseGo M true t := by
          simp [collapseGo, hd]
        rw [he, List.chain'_cons']
        refine ⟨?_, ih true⟩
        intro c hc hcon
        exact absurd hcon.2 (by rw [collapseGo_true_head M t c hc]; simp)
      · have he : collapseGo M true (a :: t) = collapseGo M true t := by
          simp [collapseGo, hd]
        rw [he]
        exact ih true
    · have he : collapseGo M b (a :: t) = a :: collapseGo M false t := by
        cases b <;> simp [collapseGo, hd]
      rw [he, List.chain'_cons']
      refine ⟨?_, ih false⟩
      intro c _ hcon
      exact hd hcon.1

/-- A list whose dashy characters are all the space, with no two adjacent
dashy characters, is a fixed point of the collapse. -/
theorem collapseGo_fixed (M : CharModel) :
    ∀ (l : List Char) (b : Bool),
      (∀ c ∈ l, dashy M c = true → c = ' ') →
      List.Chain' (fun a c => ¬(dashy M a = true ∧ dashy M c = true)) l →
      (b = true → ∀ c, l.head? = some c → dashy M c = false) →
      collapseGo M b l = l := by
  intro l
  induction l with
  | nil => intro b _ _ _; cases b <;> rfl
  | cons a t ih =>
    intro b hsp hch hhd
    rw [List.chain'_cons'] at hch
    by_cases hd : dashy M a = true
    · cases b
      · have ha : a = ' ' := hsp a (List.mem_cons_self _ _) hd
        have he : collapseGo M false (a :: t) = ' ' :: collapseGo M true t := by
          simp [collapseGo, hd]
        rw [he, ha]
        congr 1
        apply ih true (fun c hc => hsp c (List.mem_cons_of_mem _ hc)) hch.2
        intro _ c hc
        by_cases h2 : dashy M c = true
        · exact absurd ⟨hd, h2⟩ (hch.1 c hc)
        · simpa using h2
      · exact absurd (hhd rfl a rfl) (by simp [hd])
    · have he : collapseGo M b (a :: t) = a :: collapseGo M false t := by
        cases b <;> simp [collapseGo, hd]
      rw [he]
      congr 1
      exact ih false (fun c hc => hsp c (List.mem_cons_of_mem _ hc)) hch.2
        (by intro h; cases h)

/-- A list of non-dashy characters trivially has no adjacent dashy pair. -/
theorem chain_nodashy (M : CharModel) :
    ∀ l : List Char, (∀ a ∈ l, dashy M a = false) →
      List.Chain' (fun a c => ¬(dashy M a = true ∧ dashy M c = true)) l := by
  intro l
  induction l with
  | nil => intro _; exact List.chain'_nil
  | cons a t ih =>
    intro h
    rw [List.chain'_cons']
    refine ⟨?_, ih (fun x hx => h x (List.mem_cons_of_mem _ hx))⟩
    intro c _ hcon
    exact absurd hcon.1 (by simp [h a (List.mem_cons_self _ _)])

/-- A pointwise-singleton map flattens to the identity. -/
theorem flatMap_id_of {α : Type} (f : α → List α) :
    ∀ l : List α, (∀ c ∈ l, f c = [c]) → l.flatMap f = l := by
  intro l
  induction l with
  | nil => intro _; rfl
  | cons a t ih =>
    intro h
    rw [List.flatMap_cons, h a (List.mem_cons_self _ _),
      ih (fun c hc => h c (List.mem_cons_of_mem _ hc)), List.singleton_append]

/-- Characters surviving the filters and the collapse: the space, or a
non-dashy word character. -/
theorem s4_mem (M : CharModel) (l : List Char) :
    ∀ a ∈ collapseGo M false (l.filter
        (fun c => M.isWordChar c || M.isSpaceChar c || c == '-')),
      a = ' ' ∨ (M.isWordChar a = true ∧ M.isSpaceChar a = false ∧ a ≠ '-') := by
  intro a ha
  rcases mem_collapseGo M false _ a ha with rfl | ⟨hmem, hnd⟩
  · left; rfl
  · right
    have hpred := (List.mem_filter.mp hmem).2
    simp only [dashy, Bool.or_eq_false_iff] at hnd
    have hnsp : M.isSpaceChar a = false := hnd.1
    have hnda : a ≠ '-' := by
      intro h
      rw [h] at hnd
      simpa using hnd.2
    refine ⟨?_, hnsp, hnda⟩
    have hbeq : (a == '-') = false := by simp [hnda]
    rw [hnsp, hbeq] at hpred
    simpa using hpred

/-- Characters of the lower-cased collapse output: the space, or a fully
stable word character. -/
theorem s5_mem (M : CharModel) (hS : SaneModel M) (l : List Char)
    (hall : ∀ a ∈ l,
      a = ' ' ∨ (M.isWordChar a = true ∧ M.isSpaceChar a = false ∧ a ≠ '-')) :
    ∀ c ∈ l.flatMap M.lower,
      c = ' ' ∨ (M.nfkd c = [c] ∧ M.combining c = false ∧ M.isWordChar c = true ∧
        M.isSpaceChar c = false ∧ c ≠ '-' ∧ M.lower c = [c]) := by
  intro c hc
  obtain ⟨a, ha, hca⟩ := List.mem_flatMap.mp hc
  rcases hall a ha with rfl | ⟨hw, hs, hdsh⟩
  · rw [hS.lower_space] at hca
    left
    simpa using hca
  · right
    exact hS.lower_stable a hw hs hdsh c hca

/-- When the head of the collapse output is non-dashy, so is the head of
its lower-casing. -/
theorem flatMap_lower_head (M : CharModel) (hS : SaneModel M) :
    ∀ l : List Char,
      (∀ a ∈ l,
        a = ' ' ∨ (M.isWordChar a = true ∧ M.isSpaceChar a = false ∧ a ≠ '-')) →
      (∀ a, l.head? = some a → dashy M a = false) →
      ∀ d, (l.flatMap M.lower).head? = some d → dashy M d = false := by
  intro l
  induction l with
  | nil => intro _ _ d hd; cases hd
  | cons a t ih =>
    intro hall hhd d hd
    have hda : dashy M a = false := hhd a rfl
    rcases hall a (List.mem_cons_self _ _) with rfl | ⟨hw, hs, hdsh⟩
    · exfalso
      simp only [dashy, hS.space_space, Bool.true_or] at hda
      cases hda
    · have hne := hS.lower_ne a hw hs hdsh
      have hst := hS.lower_stable a hw hs hdsh
      rw [List.flatMap_cons] at hd
      cases hla : M.lower a with
      | nil => exact absurd hla hne
      | cons d0 ds =>
        rw [hla, List.cons_append, List.head?_cons, Option.some.injEq] at hd
        subst hd
        have hpkg := hst d0 (by rw [hla]; exact List.mem_cons_self _ _)
        simp [dashy, hpkg.2.2.2.1, hpkg.2.2.2.2.1]

/-- Lower-casing the collapse output never creates an adjacent dashy
pair. -/
theorem flatMap_lower_chain (M : CharModel) (hS : SaneModel M) :
    ∀ l : List Char,
      (∀ a ∈ l,
        a = ' ' ∨ (M.isWordChar a = true ∧ M.isSpaceChar a = false ∧ a ≠ '-')) →
      List.Chain' (fun a c => ¬(dashy M a = true ∧ dashy M c = true)) l →
      List.Chain' (fun a c => ¬(dashy M a = true ∧ dashy M c = true))
        (l.flatMap M.lower) := by
  intro l
  induction l with
  | nil => intro _ _; exact List.chain'_nil
  | cons a t ih =>
    intro hall hch
    rw [List.chain'_cons'] at hch
    have hallt : ∀ x ∈ t,
        x = ' ' ∨ (M.isWordChar x = true ∧ M.isSpaceChar x = false ∧ x ≠ '-') :=
      fun x hx => hall x (List.mem_cons_of_mem _ hx)
    have hcht := ih hallt hch.2
    rw [List.flatMap_cons]
    rcases hall a (List.mem_cons_self _ _) with rfl | ⟨hw, hs, hdsh⟩
    · rw [hS.lower_space, List.singleton_append, List.chain'_cons']
      refine ⟨?_, hcht⟩
      intro d hd hcon
      have hhd : ∀ c2, t.head? = some c2 → dashy M c2 = false := by
        intro c2 hc2
        by_cases h2 : dashy M c2 = true
        · refine absurd ?_ (hch.1 c2 hc2)
          refine ⟨?_, h2⟩
          simp [dashy, hS.space_space]
        · simpa using h2
      exact absurd hcon.2
        (by rw [flatMap_lower_head M hS t hallt hhd d hd]; simp)
    · have hst := hS.lower_stable a hw hs hdsh
      rw [List.chain'_append]
      refine ⟨?_, hcht, ?_⟩
      · apply chain_nodashy
        intro d hd
        have hpkg := hst d hd
        simp only [dashy, hpkg.2.2.2.1, Bool.false_or]
        simp [hpkg.2.2.2.2.1]
      · intro d1 hd1 d2 hd2 hcon
        have hd1mem : d1 ∈ M.lower a := List.mem_of_mem_getLast? hd1
        have hpkg := hst d1 hd1mem
        refine absurd hcon.1 ?_
        simp only [dashy, hpkg.2.2.2.1, Bool.false_or]
        simp [hpkg.2.2.2.2.1]

/-- The normalizer written out with its intermediate stages. -/
theorem normalize_name_eq (M : CharModel) (s : String) :
    normalize_name M s = ⟨trimBy M.isSpaceChar
      ((collapseGo M false (((s.data.flatMap M.nfkd).filter
          (fun c => ! M.combining c)).filter
          (fun c => M.isWordChar c || M.isSpaceChar c || c == '-'))).flatMap
        M.lower)⟩ := rfl

/-- Every character of a normalized name is the space or a fully stable
word character. -/
theorem normalize_emittable (M : CharModel) (hS : SaneModel M) (s : String) :
    ∀ c ∈ (normalize_name M s).data,
      c = ' ' ∨ (M.nfkd c = [c] ∧ M.combining c = false ∧ M.isWordChar c = true ∧
        M.isSpaceChar c = false ∧ c ≠ '-' ∧ M.lower c = [c]) := by
  intro c hc
  have hc2 : c ∈ ((collapseGo M false ((((s.data.flatMap M.nfkd).filter
      (fun c => ! M.combining c)).filter
      (fun c => M.isWordChar c || M.isSpaceChar c || c == '-')))).flatMap
      M.lower) :=
    mem_trimBy M.isSpaceChar _ c hc
  exact s5_mem M hS _ (s4_mem M _) c hc2

/-- A normalized name has no two adjacent dashy characters. -/
theorem normalize_chain (M : CharModel) (hS : SaneModel M) (s : String) :
    List.Chain' (fun a c => ¬(dashy M a = true ∧ dashy M c = true))
      (normalize_name M s).data := by
  have h5 : List.Chain' (fun a c => ¬(dashy M a = true ∧ dashy M c = true))
      ((collapseGo M false ((((s.data.flatMap M.nfkd).filter
          (fun c => ! M.combining c)).filter
          (fun c => M.isWordChar c || M.isSpaceChar c || c == '-')))).flatMap
        M.lower) :=
    flatMap_lower_chain M hS _ (s4_mem M _) (collapseGo_chain M _ false)
  exact List.Chain'.infix h5 (trimBy_mid M.isSpaceChar _)

/-- A list of stable characters with no adjacent dashy pair and no leading
or trailing whitespace is a fixed point of the normalizer. -/
theorem normalize_fixed (M : CharModel) (hS : SaneModel M) (t : List Char)
    (hmem : ∀ c ∈ t,
      c = ' ' ∨ (M.nfkd c = [c] ∧ M.combining c = false ∧ M.isWordChar c = true ∧
        M.isSpaceChar c = false ∧ c ≠ '-' ∧ M.lower c = [c]))
    (hch : List.Chain' (fun a c => ¬(dashy M a = true ∧ dashy M c = true)) t)
    (hhd : ∀ c, t.head? = some c → M.isSpaceChar c = false)
    (hlast : ∀ c, t.getLast? = some c → M.isSpaceChar c = false) :
    normalize_name M ⟨t⟩ = ⟨t⟩ := by
  have h1 : t.flatMap M.nfkd = t := by
    apply flatMap_id_of
    intro c hc
    rcases hmem c hc with rfl | h
    · exact hS.nfkd_space
    · exact h.1
  have h2 : t.filter (fun c => ! M.combining c) = t := by
    refine List.filter_eq_self.mpr ?_
    intro c hc
    show (! M.combining c) = true
    rcases hmem c hc with rfl | h
    · rw [hS.combining_space]; rfl
    · rw [h.2.1]; rfl
  have h3 : t.filter (fun c => M.isWordChar c || M.isSpaceChar c || c == '-') = t := by
    refine List.filter_eq_self.mpr ?_
    intro c hc
    show (M.isWordChar c || M.isSpaceChar c || (c == '-')) = true
    rcases hmem c hc with rfl | h
    · rw [hS.space_space]; simp
    · rw [h.2.2.1]; rfl
  have h4 : collapseGo M false t = t := by
    apply collapseGo_fixed M t false ?_ hch ?_
    · intro c hc hd
      rcases hmem c hc with rfl | h
      · rfl
      · exfalso
        simp only [dashy, h.2.2.2.1, Bool.false_or] at hd
        exact h.2.2.2.2.1 (by simpa using hd)
    · intro hfalse; cases hfalse
  have h5 : t.flatMap M.lower = t := by
    apply flatMap_id_of
    intro c hc
    rcases hmem c hc with rfl | h
    · exact hS.lower_space
    · exact h.2.2.2.2.2
  have h6 : trimBy M.isSpaceChar t = t := trimBy_eq_self M.isSpaceChar t hhd hlast
  show (⟨trimBy M.isSpaceChar ((collapseGo M false ((t.flatMap M.nfkd).filter
      (fun c => ! M.combining c) |>.filter
      (fun c => M.isWordChar c || M.isSpaceChar c || c == '-'))).flatMap
      M.lower)⟩ : String) = ⟨t⟩
  rw [h1, h2, h3, h4, h5, h6]

/-- **C6**: the normalizer (a total function of its input string) maps the
empty string to itself and, under the Unicode facts packaged in
`SaneModel`, is idempotent on every string. -/
theorem claim_C6_normalize_idempotent (M : CharModel) (hS : SaneModel M)
    (x : String) :
    normalize_name M (normalize_name M x) = normalize_name M x ∧
    normalize_name M "" = "" := by
  refine ⟨?_, rfl⟩
  have hmem := normalize_emittable M hS x
  have hch := normalize_chain M hS x
  have hhd : ∀ c, (normalize_name M x).data.head? = some c →
      M.isSpaceChar c = false := by
    intro c hc
    exact trimBy_head M.isSpaceChar _ c hc
  have hlast : ∀ c, (normalize_name M x).data.getLast? = some c →
      M.isSpaceChar c = false := by
    intro c hc
    exact trimBy_last M.isSpaceChar _ c hc
  exact normalize_fixed M hS (normalize_name M x).data hmem hch hhd hlast

/-- The minimal concrete model satisfies the `SaneModel` facts. -/
theorem saneModel_flatChars : SaneModel flatChars :=
  { nfkd_space := rfl
    combining_space := rfl
    space_space := rfl
    lower_space := rfl
    lower_ne := fun _ _ _ _ => by simp [flatChars]
    lower_stable := fun c hw hs hd d hdm => by
      have hdc : d = c := by simpa [flatChars] using hdm
      subst hdc
      exact ⟨rfl, rfl, hw, hs, hd, rfl⟩ }

/-- Witness for C6 at a concrete sane model and input. -/
theorem claim_C6_witness :
    normalize_name flatChars (normalize_name flatChars " a- b ") =
      normalize_name flatChars " a- b " ∧
    normalize_name flatChars "" = "" :=
  claim_C6_normalize_idempotent flatChars saneModel_flatChars " a- b "

/-- **C10**: the aggregator stores any integer-parsing `cited_by_count`
without a sign check: a negative value is written first-write-wins (a later
positive value for the same work is ignored) and the group's emitted
`cited_by_count` is negative. -/
theorem claim_C10_negative_cited :
    pyInt? "-5" = some (-5) ∧
    (aggregate_authors asciiChars
        [mkRow "A" "X" "W" "yes" "-5" "", mkRow "A" "X" "W" "" "7" ""]).map
      OutputRow.cited_by_count = [-5] ∧ (-5 : Int) < 0 := by
  refine ⟨by decide, by decide, by decide⟩

end AWAgg
